import Mathlib

/-!
Verification of the audio-graph compiler (MeadowlarkDAW/audio-graph, src/lib.rs).

The Rust library is shallowly embedded below.  Machine integers (`usize`, `u64`)
are modeled as `Nat`; all arithmetic in the source is bounds-checked or proved
non-wrapping where it matters, and every place where the source can panic is
marked with a comment.  `Vec` push/pop act on one end of the vector; lists in the
embedding use the head as that end for free lists and free stacks (push = cons,
pop = head), which preserves the LIFO behavior exactly.  Hash maps whose values
are looked up by key (`delay_comps`, `input_assignments`, `output_assignments`)
are modeled as functions into `Option`; hash sets as lists with membership.

The generic port type parameter `PT` (projected to a dense index by
`PortType::into_index`, with cardinality `num_types`) is modeled by the index
itself: a port type is a `Nat`, and the graph records the cardinality
`numTypes`.  The node and port identifier types stay generic.
-/

namespace AudioGraph

/-- An edge of the port graph: `Edge { src_node, src_port, dst_node, dst_port, type_ }`. -/
structure Edge where
  srcNode : Nat
  srcPort : Nat
  dstNode : Nat
  dstPort : Nat
  ptype : Nat
deriving DecidableEq, Repr

/-- The source `PartialEq for Edge` compares only the two ports. -/
def Edge.sameConn (e f : Edge) : Bool :=
  e.srcPort == f.srcPort && e.dstPort == f.dstPort

/-- `Buffer { index, type_ }`: a typed intermediate buffer slot. -/
structure Buffer where
  index : Nat
  btype : Nat
deriving DecidableEq, Repr

/-- `Scheduled { node, inputs, outputs }`: one schedule entry. -/
structure Scheduled (N P : Type) where
  node : N
  inputs : List (P × List (Buffer × Nat))
  outputs : List (P × Buffer)
deriving Repr

/-- `BufferAllocator { buffer_count_stacks }`: per port type a pair of the next
fresh index and the free stack. -/
structure BufferAllocator where
  bufferCountStacks : List (Nat × List Nat)
deriving Repr

/-- `BufferAllocator::clear` resets each count and stack, keeping the number of types. -/
def BufferAllocator.clear (a : BufferAllocator) : BufferAllocator :=
  ⟨a.bufferCountStacks.map (fun _ => (0, []))⟩

/-- Indexing `buffer_count_stacks[type_index]`: the pair of the next fresh
index and the free stack of one port type.  The source's indexing is in bounds
whenever the type index is below the cardinality; `getD` stands in for it. -/
def BufferAllocator.stackAt (a : BufferAllocator) (t : Nat) : Nat × List Nat :=
  a.bufferCountStacks.getD t (0, [])

/-- `BufferAllocator::acquire`: pop the type's free stack, else hand out the next
fresh index. -/
def BufferAllocator.acquire (a : BufferAllocator) (t : Nat) : Buffer × BufferAllocator :=
  match (a.stackAt t).2 with
  | i :: rest => (⟨i, t⟩, ⟨a.bufferCountStacks.set t ((a.stackAt t).1, rest)⟩)
  | [] => (⟨(a.stackAt t).1, t⟩, ⟨a.bufferCountStacks.set t ((a.stackAt t).1 + 1, [])⟩)

/-- `BufferAllocator::release`: push the buffer's index onto its type's free stack. -/
def BufferAllocator.release (a : BufferAllocator) (b : Buffer) : BufferAllocator :=
  ⟨a.bufferCountStacks.set b.btype ((a.stackAt b.btype).1, b.index :: (a.stackAt b.btype).2)⟩

/-- The compiler's scratch state (`HeapStore`).  The `Option` wrappers of the
source exist only to move fields out of the struct temporarily and are always
`Some` at the API boundary, so they are dropped here.  `walk_indegree` is
cleared at the start of every walk and its final contents are never read, so it
is modeled transiently inside the walk. -/
structure HeapStore (N P : Type) where
  walkQueue : List Nat
  cycleQueued : List Nat
  allLatencies : List (Option Nat)
  delayComps : Nat × Nat → Option Nat
  inputAssignments : Nat × Nat → Option (List (Buffer × (Nat × Nat)))
  outputAssignments : Nat × Nat → Option (Buffer × Nat)
  allocator : BufferAllocator
  scheduledNodes : List Nat
  scheduled : List (Scheduled N P)

/-- The graph store: dense vectors indexed by node and port handles. -/
structure Graph (N P : Type) where
  numTypes : Nat
  edges : List (List Edge)
  ports : List (List Nat)
  delays : List Nat
  portData : List (Nat × Nat)
  portIdents : List P
  nodeIdents : List N
  freeNodes : List Nat
  freePorts : List Nat
  heapStore : HeapStore N P

/-- The user-facing error enumeration. -/
inductive Error where
  | nodeDoesNotExist
  | portDoesNotExist
  | cycle
  | connectionDoesNotExist
  | refDoesNotExist
  | invalidPortType
deriving DecidableEq, Repr

instance {E A : Type} [DecidableEq E] [DecidableEq A] : DecidableEq (Except E A) := fun x y =>
  match x, y with
  | .ok a, .ok b =>
      if h : a = b then isTrue (by rw [h]) else isFalse (fun hc => h (by injection hc))
  | .ok _, .error _ => isFalse (fun hc => Except.noConfusion hc)
  | .error _, .ok _ => isFalse (fun hc => Except.noConfusion hc)
  | .error e, .error f =>
      if h : e = f then isTrue (by rw [h]) else isFalse (fun hc => h (by injection hc))

/-- A fresh graph (`Graph::default` with `PT::num_types() = numTypes`). -/
def mkGraph (N P : Type) (numTypes : Nat) : Graph N P where
  numTypes := numTypes
  edges := []
  ports := []
  delays := []
  portData := []
  portIdents := []
  nodeIdents := []
  freeNodes := []
  freePorts := []
  heapStore :=
    { walkQueue := []
      cycleQueued := []
      allLatencies := []
      delayComps := fun _ => none
      inputAssignments := fun _ => none
      outputAssignments := fun _ => none
      allocator := ⟨List.replicate numTypes (0, [])⟩
      scheduledNodes := []
      scheduled := [] }

variable {N P : Type}

/-- `node_count` is the length of the per-node vectors. -/
def Graph.nodeCount (g : Graph N P) : Nat := g.ports.length

/-- `port_count` is the length of the per-port vectors. -/
def Graph.portCount (g : Graph N P) : Nat := g.portData.length

/-- Indexing `edges[n]`; the handle is within bounds whenever it is used by the source. -/
def Graph.edgesAt (g : Graph N P) (n : Nat) : List Edge := g.edges.getD n []

/-- Indexing `ports[n]`. -/
def Graph.portsAt (g : Graph N P) (n : Nat) : List Nat := g.ports.getD n []

/-- Indexing `port_data[p]`: the owning node and the port type index. -/
def Graph.portDataAt (g : Graph N P) (p : Nat) : Nat × Nat := g.portData.getD p (0, 0)

/-- Handle validity as checked by `node_check`. -/
def Graph.nodeLive (g : Graph N P) (n : Nat) : Prop := n < g.nodeCount ∧ n ∉ g.freeNodes

/-- Handle validity as checked by `port_check`. -/
def Graph.portLive (g : Graph N P) (p : Nat) : Prop := p < g.portCount ∧ p ∉ g.freePorts

instance (g : Graph N P) (n : Nat) : Decidable (g.nodeLive n) := by
  unfold Graph.nodeLive; infer_instance

instance (g : Graph N P) (p : Nat) : Decidable (g.portLive p) := by
  unfold Graph.portLive; infer_instance

/-- `Graph::node`: create a node, recycling a freed handle when available. -/
def Graph.node (g : Graph N P) (ident : N) : Graph N P × Nat :=
  match g.freeNodes with
  | n :: rest =>
      ({ g with
          edges := g.edges.set n []
          ports := g.ports.set n []
          delays := g.delays.set n 0
          nodeIdents := g.nodeIdents.set n ident
          freeNodes := rest }, n)
  | [] =>
      ({ g with
          edges := g.edges ++ [[]]
          ports := g.ports ++ [[]]
          delays := g.delays ++ [0]
          nodeIdents := g.nodeIdents ++ [ident] }, g.nodeCount)

/-- `Graph::port`: create a port on a node, recycling a freed handle when available. -/
def Graph.port (g : Graph N P) (node : Nat) (ty : Nat) (ident : P) :
    Graph N P × Except Error Nat :=
  if g.nodeLive node then
    match g.freePorts with
    | p :: rest =>
        ({ g with
            ports := g.ports.set node (g.portsAt node ++ [p])
            portData := g.portData.set p (node, ty)
            portIdents := g.portIdents.set p ident
            freePorts := rest }, .ok p)
    | [] =>
        let p := g.portCount
        ({ g with
            ports := g.ports.set node (g.portsAt node ++ [p])
            portData := g.portData ++ [(node, ty)]
            portIdents := g.portIdents ++ [ident] }, .ok p)
  else (g, .error .nodeDoesNotExist)

/-- `Graph::incoming`: edges of the port's owner whose destination is this port. -/
def Graph.incoming (g : Graph N P) (port : Nat) : List Edge :=
  (g.edgesAt (g.portDataAt port).1).filter (fun e => e.dstPort == port)

/-- `Graph::outgoing`: edges of the port's owner whose source is this port. -/
def Graph.outgoing (g : Graph N P) (port : Nat) : List Edge :=
  (g.edgesAt (g.portDataAt port).1).filter (fun e => e.srcPort == port)

/-- `Graph::dependencies`: sources of the edges into this node, with multiplicity. -/
def Graph.dependencies (g : Graph N P) (n : Nat) : List Nat :=
  (g.edgesAt n).filterMap (fun e => if e.dstNode = n then some e.srcNode else none)

/-- `Graph::dependents`: destinations of the edges out of this node, with multiplicity. -/
def Graph.dependents (g : Graph N P) (n : Nat) : List Nat :=
  (g.edgesAt n).filterMap (fun e => if e.srcNode = n then some e.dstNode else none)

/-- `Graph::remove_edge`: locate the edge in both endpoint lists by port-pair
equality, remove it from both, else `ConnectionDoesNotExist`.  The source
removes from the source-node list first and then from the destination-node list
of the already-mutated storage; the embedding does the same. -/
def Graph.remove_edge (g : Graph N P) (edge : Edge) : Graph N P × Except Error Unit :=
  match (g.edgesAt edge.srcNode).findIdx? (fun e => e.sameConn edge) with
  | none => (g, .error .connectionDoesNotExist)
  | some s =>
      match (g.edgesAt edge.dstNode).findIdx? (fun e => e.sameConn edge) with
      | none => (g, .error .connectionDoesNotExist)
      | some d =>
          let g1 := { g with
            edges := g.edges.set edge.srcNode ((g.edgesAt edge.srcNode).eraseIdx s) }
          let g2 := { g1 with
            edges := g1.edges.set edge.dstNode ((g1.edgesAt edge.dstNode).eraseIdx d) }
          (g2, .ok ())

/-- `Graph::delete_port`: remove every edge touching the port (iterating over a
clone of the owner's edge list), then drop the port from the owner's port list
and push the handle on the free list.  Note that the edge removal happens
before the `position` lookup that can fail. -/
def Graph.delete_port (g : Graph N P) (p : Nat) : Graph N P × Except Error Unit :=
  if g.portLive p then
    let node := (g.portDataAt p).1
    let g1 := ((g.edgesAt node).filter (fun e => e.dstPort == p || e.srcPort == p)).foldl
      (fun acc e => (acc.remove_edge e).1) g
    match (g1.portsAt node).findIdx? (fun q => q == p) with
    | none => (g1, .error .portDoesNotExist)
    | some i =>
        ({ g1 with
            ports := g1.ports.set node ((g1.portsAt node).eraseIdx i)
            freePorts := p :: g1.freePorts }, .ok ())
  else (g, .error .portDoesNotExist)

/-- `Graph::delete_node`: delete every port (iterating over a clone of the port
list, ignoring the per-port results), then push the handle on the free list. -/
def Graph.delete_node (g : Graph N P) (n : Nat) : Graph N P × Except Error Unit :=
  if g.nodeLive n then
    let g1 := (g.portsAt n).foldl (fun acc p => (acc.delete_port p).1) g
    ({ g1 with freeNodes := n :: g1.freeNodes }, .ok ())
  else (g, .error .nodeDoesNotExist)

/-- The breadth-first walk of `cycle_check`, forward from `dst` through the
dependents relation, failing when it reaches `src`.  The state is the walk
queue and the visited set (`cycle_queued`).  The source loop terminates because
the visited set admits each node once; the embedding uses fuel, and
`nodeCount + 1` fuel is enough for every graph whose stored edges point at
in-range nodes (a consequence of the invariants).  Exhausted fuel
conservatively reports a cycle; this branch is unreachable in the verified
uses below. -/
def Graph.cycleBfs (g : Graph N P) (src : Nat) :
    Nat → List Nat → List Nat → Except Error Unit × List Nat × List Nat
  | 0, queue, queued => (.error .cycle, queue, queued)
  | _ + 1, [], queued => (.ok (), [], queued)
  | fuel + 1, node :: queue, queued =>
      if node = src then (.error .cycle, queue, queued)
      else
        let st := (g.dependents node).foldl
          (fun qq dep => if dep ∈ qq.2 then qq else (qq.1 ++ [dep], qq.2 ++ [dep]))
          (queue, queued)
        g.cycleBfs src fuel st.1 st.2

/-- `Graph::cycle_check`: clear the scratch queue and visited set, seed both
with `dst`, run the walk, and store the scratch containers back (with whatever
contents the walk left in them). -/
def Graph.cycle_check (g : Graph N P) (src dst : Nat) : Graph N P × Except Error Unit :=
  let r := g.cycleBfs src (g.nodeCount + 1) [dst] [dst]
  ({ g with heapStore := { g.heapStore with walkQueue := r.2.1, cycleQueued := r.2.2 } }, r.1)

/-- `Graph::connect`: validate both ports, require equal types, return success
without modification when the edge already exists, otherwise consult the cycle
guard and append the edge to both endpoint lists. -/
def Graph.connect (g : Graph N P) (src dst : Nat) : Graph N P × Except Error Unit :=
  if ¬ g.portLive src then (g, .error .portDoesNotExist)
  else if ¬ g.portLive dst then (g, .error .portDoesNotExist)
  else
    let srcNode := (g.portDataAt src).1
    let srcType := (g.portDataAt src).2
    let dstNode := (g.portDataAt dst).1
    let dstType := (g.portDataAt dst).2
    if srcType ≠ dstType then (g, .error .invalidPortType)
    else if (g.incoming dst).any (fun e => e.srcPort == src) then (g, .ok ())
    else
      match (g.cycle_check srcNode dstNode).2 with
      | .error e => ((g.cycle_check srcNode dstNode).1, .error e)
      | .ok _ =>
          let g1 := (g.cycle_check srcNode dstNode).1
          let edge : Edge := ⟨srcNode, src, dstNode, dst, srcType⟩
          let g2 := { g1 with edges := g1.edges.set srcNode (g1.edgesAt srcNode ++ [edge]) }
          let g3 := { g2 with edges := g2.edges.set dstNode (g2.edgesAt dstNode ++ [edge]) }
          (g3, .ok ())

/-- `Graph::disconnect`: validate both ports and remove the matching edge. -/
def Graph.disconnect (g : Graph N P) (src dst : Nat) : Graph N P × Except Error Unit :=
  if ¬ g.portLive src then (g, .error .portDoesNotExist)
  else if ¬ g.portLive dst then (g, .error .portDoesNotExist)
  else
    let srcNode := (g.portDataAt src).1
    let dstNode := (g.portDataAt dst).1
    let ty := (g.portDataAt src).2
    g.remove_edge ⟨srcNode, src, dstNode, dst, ty⟩

/-- `Graph::set_delay`. -/
def Graph.set_delay (g : Graph N P) (n : Nat) (d : Nat) : Graph N P × Except Error Unit :=
  if g.nodeLive n then ({ g with delays := g.delays.set n d }, .ok ())
  else (g, .error .nodeDoesNotExist)

/-- `Graph::set_port_ident`. -/
def Graph.set_port_ident (g : Graph N P) (p : Nat) (ident : P) : Graph N P × Except Error Unit :=
  if g.portLive p then ({ g with portIdents := g.portIdents.set p ident }, .ok ())
  else (g, .error .portDoesNotExist)

/-- `Graph::set_node_ident`. -/
def Graph.set_node_ident (g : Graph N P) (n : Nat) (ident : N) : Graph N P × Except Error Unit :=
  if g.nodeLive n then ({ g with nodeIdents := g.nodeIdents.set n ident }, .ok ())
  else (g, .error .nodeDoesNotExist)

/-- The loop of `walk_mut` (Kahn's algorithm): pop a node, hand it to the
callback (the callback effects are folds over the visit order, see `compile`),
then decrement the indegree of each dependent, enqueueing those that reach
zero.  The source decrements with `checked_sub(1).expect("corrupted graph")`;
under the data-model invariants the counter is positive at every decrement
(proved below), where `Nat` subtraction coincides.  The indegree map keys are
exactly the live nodes in the source; the embedding uses a total function and
the walk only ever touches live nodes under the invariants.  Fuel stands in
for the termination argument; `nodeCount + 1` is enough under the invariants
(each node is enqueued at most once), and the pair returned is the visit order
together with the final queue. -/
def Graph.kahnLoop (g : Graph N P) :
    Nat → List Nat → (Nat → Nat) → List Nat → List Nat × List Nat
  | 0, queue, _, processed => (processed, queue)
  | _ + 1, [], _, processed => (processed, [])
  | fuel + 1, n :: queue, indeg, processed =>
      let st := (g.dependents n).foldl
        (fun (qi : List Nat × (Nat → Nat)) dep =>
          let v := qi.2 dep - 1
          (if v = 0 then qi.1 ++ [dep] else qi.1, Function.update qi.2 dep v))
        (queue, indeg)
      g.kahnLoop fuel st.1 st.2 (processed ++ [n])

/-- The live node handles in ascending order. -/
def Graph.liveNodesList (g : Graph N P) : List Nat :=
  (List.range g.nodeCount).filter (fun n => decide (n ∉ g.freeNodes))

/-- The initial indegree of every node: its number of dependency edges. -/
def Graph.initIndeg (g : Graph N P) : Nat → Nat :=
  fun n => (g.dependencies n).length

/-- The initial queue: live nodes of indegree zero.  The source seeds the queue
by iterating the indegree hash map, whose order is a fixed function of the key
set; the embedding fixes ascending handle order.  Every walk property proved
below is established for an arbitrary enumeration of the zero-indegree set and
then instantiated with this one. -/
def Graph.initQueue (g : Graph N P) : List Nat :=
  g.liveNodesList.filter (fun n => (g.dependencies n).length == 0)

/-- The topological visit order produced by `walk_mut`. -/
def Graph.visitOrder (g : Graph N P) : List Nat :=
  (g.kahnLoop (g.nodeCount + 1) g.initQueue g.initIndeg []).1

/-- State of the latency solver: `all_latencies` and the delay-compensation map. -/
abbrev LatState : Type := List (Option Nat) × (Nat × Nat → Option Nat)

/-- `solve_latency_requirements` for one visited node: collect the dependency
edges, compute each edge latency as the source's arrival latency plus its
intrinsic delay, take the maximum (`0` when there are no dependencies), record
it as this node's arrival latency, and for every dependency at a strictly
smaller latency record the difference as the delay compensation of each of its
edges.  The source reads `all_latencies[src].unwrap()`, which panics when the
dependency has not been visited; it is proved below that under the invariants
every dependency is visited first, where the `getD 0` stand-in coincides. -/
def Graph.solveLatencyStep (g : Graph N P) (st : LatState) (n : Nat) : LatState :=
  let depEdges := (g.edgesAt n).filter (fun e => e.dstNode == n)
  let deps := depEdges.map (fun e => e.srcNode)
  let lats := depEdges.map
    (fun e => (st.1.getD e.srcNode none).getD 0 + g.delays.getD e.srcNode 0)
  let maxLatency := lats.foldl max 0
  let allLat := st.1.set n (some maxLatency)
  let dc := (deps.zip lats).foldl
    (fun dc dl =>
      let comp := maxLatency - dl.2
      if comp ≠ 0 then
        ((g.edgesAt n).filter (fun e => e.srcNode == dl.1)).foldl
          (fun dc e => Function.update dc (e.srcPort, e.dstPort) (some comp)) dc
      else dc)
    st.2
  (allLat, dc)

/-- Output buffer assignments: `(node, port) -> (buffer, refcount)`. -/
abbrev OutAsg : Type := Nat × Nat → Option (Buffer × Nat)

/-- Input buffer assignments: `(node, port) -> [(buffer, (src_port, dst_port))]`. -/
abbrev InAsg : Type := Nat × Nat → Option (List (Buffer × (Nat × Nat)))

/-- State of the buffer solver. -/
abbrev BufState : Type := OutAsg × InAsg × BufferAllocator

/-- `solve_buffer_requirements` for one visited node: for each port, first every
outgoing edge (obtain or create the output assignment and bump its refcount,
then append the buffer to the consumer's input assignment), then every incoming
edge (decrement the producer's refcount, releasing the buffer when it drains
to zero).  Two panic points of the source are marked: the producer lookup
(`expect("no output buffer assigned")`) and the refcount decrement, which
would underflow at zero; both are unreachable under the invariants (proved
below) and the embedding leaves the state unchanged there.  Note that
`or_insert(allocator.acquire(type_), 0)` evaluates its argument eagerly, so the
allocator acquires a buffer for every outgoing edge and discards it when the
assignment already exists; the embedding reproduces this. -/
def Graph.solveBufferStep (g : Graph N P) (st : BufState) (n : Nat) : BufState :=
  (g.portsAt n).foldl
    (fun st port =>
      let ty := (g.portDataAt port).2
      let st := (g.outgoing port).foldl
        (fun st out =>
          let oa := st.1
          let ia := st.2.1
          let acq := st.2.2.acquire ty
          let bc := match oa (n, port) with
            | some bc => bc
            | none => (acq.1, 0)
          let oa1 := Function.update oa (n, port) (some (bc.1, bc.2 + 1))
          let ia1 := Function.update ia (out.dstNode, out.dstPort)
            (some ((ia (out.dstNode, out.dstPort)).getD [] ++ [(bc.1, (out.srcPort, out.dstPort))]))
          (oa1, ia1, acq.2))
        st
      (g.incoming port).foldl
        (fun st inp =>
          let oa := st.1
          match oa (inp.srcNode, inp.srcPort) with
          | none => st
          | some bc =>
              match bc.2 with
              | 0 => st
              | c + 1 =>
                  let oa1 := Function.update oa (inp.srcNode, inp.srcPort) (some (bc.1, c))
                  let al1 := if c = 0 then st.2.2.release bc.1 else st.2.2
                  (oa1, st.2.1, al1))
        st)
    st

/-- The schedule assembly at the end of `compile`: one entry per visited node,
with one input tuple per port that has an input assignment (buffer plus the
recorded delay compensation, defaulting to `0`) and one output tuple per port
that has an output assignment. -/
def Graph.buildScheduled [Inhabited N] [Inhabited P] (g : Graph N P) (order : List Nat)
    (ia : InAsg) (oa : OutAsg) (dc : Nat × Nat → Option Nat) : List (Scheduled N P) :=
  order.map (fun n =>
    { node := g.nodeIdents.getD n default
      inputs := (g.portsAt n).filterMap (fun port =>
        (ia (n, port)).map (fun buffers =>
          (g.portIdents.getD port default,
           buffers.map (fun bp => (bp.1, (dc bp.2).getD 0)))))
      outputs := (g.portsAt n).filterMap (fun port =>
        (oa (n, port)).map (fun bc => (g.portIdents.getD port default, bc.1))) })

/-- The initial latency state of a `compile` call: `all_latencies` cleared and
resized to the node count, the delay-compensation map cleared. -/
def Graph.latInit (g : Graph N P) : LatState :=
  (List.replicate g.nodeCount none, fun _ => none)

/-- The initial buffer state of a `compile` call: both assignment maps cleared
and the allocator cleared. -/
def Graph.bufInit (g : Graph N P) : BufState :=
  (fun _ => none, fun _ => none, g.heapStore.allocator.clear)

/-- `Graph::compile`: clear the scratch, walk the graph topologically (the
per-node callback runs the latency solver and the buffer solver and appends the
node to the visit order; the two solvers touch disjoint state, so they are
folds over the visit order), assemble the schedule, and store everything back
into the heap store.  Only the heap store changes; the graph proper is read
but never written. -/
def Graph.compile [Inhabited N] [Inhabited P] (g : Graph N P) :
    Graph N P × List (Scheduled N P) :=
  let kr := g.kahnLoop (g.nodeCount + 1) g.initQueue g.initIndeg []
  let order := kr.1
  let lat := order.foldl g.solveLatencyStep g.latInit
  let buf := order.foldl g.solveBufferStep g.bufInit
  let sched := g.buildScheduled order buf.2.1 buf.1 lat.2
  ({ g with heapStore :=
      { walkQueue := kr.2
        cycleQueued := g.heapStore.cycleQueued
        allLatencies := lat.1
        delayComps := lat.2
        inputAssignments := buf.2.1
        outputAssignments := buf.1
        allocator := buf.2.2
        scheduledNodes := order
        scheduled := sched } }, sched)

/-!  Reachability over the stored edge set, and acyclicity. -/

/-- One hop of the node-level dependency relation: some edge stored in `m`'s
adjacency list leaves `m` and enters `n`.  This is exactly the relation the
`dependents` iterator exposes. -/
def Graph.step (g : Graph N P) (m n : Nat) : Prop :=
  ∃ e ∈ g.edgesAt m, e.srcNode = m ∧ e.dstNode = n

/-- The edge set contains no directed cycle among nodes (data-model invariant 3). -/
def Graph.Acyclic (g : Graph N P) : Prop :=
  ∀ n, ¬ Relation.TransGen g.step n n

theorem Graph.step_iff_dependents (g : Graph N P) (m n : Nat) :
    g.step m n ↔ n ∈ g.dependents m := by
  simp only [Graph.step, Graph.dependents, List.mem_filterMap]
  constructor
  · rintro ⟨e, he, h1, h2⟩
    exact ⟨e, he, by simp [h1, h2]⟩
  · rintro ⟨e, he, h⟩
    by_cases hs : e.srcNode = m
    · rw [if_pos hs, Option.some.injEq] at h
      exact ⟨e, he, hs, h⟩
    · simp [hs] at h

/-- A concrete certificate for acyclicity: a rank function that strictly
increases along every stored edge. -/
theorem Graph.acyclic_of_edge_rank (g : Graph N P) (f : Nat → Nat)
    (h : ∀ m < g.edges.length, ∀ e ∈ g.edges.getD m [], f e.srcNode < f e.dstNode) :
    g.Acyclic := by
  have hstep : ∀ a b, g.step a b → f a < f b := by
    rintro a b ⟨e, he, h1, h2⟩
    have ha : a < g.edges.length := by
      by_contra hlt
      push_neg at hlt
      rw [Graph.edgesAt, List.getD_eq_default _ _ hlt] at he
      exact absurd he (List.not_mem_nil e)
    have := h a ha e he
    rwa [h1, h2] at this
  have htrans : ∀ a b, Relation.TransGen g.step a b → f a < f b := by
    intro a b hab
    induction hab with
    | single h1 => exact hstep _ _ h1
    | tail _ h1 ih => exact lt_trans ih (hstep _ _ h1)
  intro n hn
  exact lt_irrefl _ (htrans n n hn)

/-!  Correctness of the cycle guard's breadth-first walk. -/

/-- The queue-extension fold of one BFS round: the dependents not yet in the
visited set are appended to both the queue and the visited set. -/
theorem Graph.bfsFold_spec (_g : Graph N P) (l : List Nat) :
    ∀ q qd : List Nat,
      ∃ new, (l.foldl
          (fun qq dep => if dep ∈ qq.2 then qq else (qq.1 ++ [dep], qq.2 ++ [dep]))
          (q, qd)) = (q ++ new, qd ++ new) ∧ ∀ d ∈ l, d ∈ qd ++ new := by
  induction l with
  | nil => intro q qd; exact ⟨[], by simp⟩
  | cons d l ih =>
      intro q qd
      simp only [List.foldl_cons]
      by_cases hd : d ∈ qd
      · obtain ⟨new, h1, h2⟩ := ih q qd
        refine ⟨new, by simp [hd, h1], ?_⟩
        intro x hx
        rcases List.mem_cons.1 hx with hx | hx
        · subst hx; exact List.mem_append_left _ hd
        · exact h2 x hx
      · obtain ⟨new, h1, h2⟩ := ih (q ++ [d]) (qd ++ [d])
        refine ⟨[d] ++ new, ?_, ?_⟩
        · simp only [if_neg hd, h1, List.append_assoc]
        · intro x hx
          rcases List.mem_cons.1 hx with hx | hx
          · subst hx; simp
          · have := h2 x hx; simpa [List.append_assoc] using this

/-- If the breadth-first walk finishes with success, the final visited set
contains the initial one, avoids `src`, and is closed under the dependents
relation. -/
theorem Graph.cycleBfs_ok (g : Graph N P) (src : Nat) :
    ∀ (fuel : Nat) (queue queued : List Nat),
      (∀ n ∈ queue, n ∈ queued) →
      (∀ n ∈ queued, n ∉ queue → n ≠ src ∧ ∀ m, g.step n m → m ∈ queued) →
      (g.cycleBfs src fuel queue queued).1 = .ok () →
      (∀ n ∈ queued, n ∈ (g.cycleBfs src fuel queue queued).2.2) ∧
      (∀ n ∈ (g.cycleBfs src fuel queue queued).2.2,
        n ≠ src ∧ ∀ m, g.step n m → m ∈ (g.cycleBfs src fuel queue queued).2.2) := by
  intro fuel
  induction fuel with
  | zero => intro queue queued _ _ hok; simp [Graph.cycleBfs] at hok
  | succ fuel ih =>
      intro queue queued hsub hproc hok
      match queue with
      | [] =>
          simp only [Graph.cycleBfs]
          exact ⟨fun n hn => hn, fun n hn => hproc n hn (by simp)⟩
      | node :: queue =>
          by_cases hnode : node = src
          · simp [Graph.cycleBfs, hnode] at hok
          · obtain ⟨new, hfold, hdeps⟩ := g.bfsFold_spec (g.dependents node) queue queued
            have hrec :
                g.cycleBfs src (fuel + 1) (node :: queue) queued
                  = g.cycleBfs src fuel (queue ++ new) (queued ++ new) := by
              simp only [Graph.cycleBfs, if_neg hnode, hfold]
            rw [hrec] at hok ⊢
            have hsub' : ∀ n ∈ queue ++ new, n ∈ queued ++ new := by
              intro n hn
              rcases List.mem_append.1 hn with hn | hn
              · exact List.mem_append_left _ (hsub n (List.mem_cons_of_mem _ hn))
              · exact List.mem_append_right _ hn
            have hproc' : ∀ n ∈ queued ++ new, n ∉ queue ++ new →
                n ≠ src ∧ ∀ m, g.step n m → m ∈ queued ++ new := by
              intro n hn hnq
              rcases List.mem_append.1 hn with hn | hn
              · by_cases heq : n = node
                · subst heq
                  refine ⟨hnode, fun m hm => ?_⟩
                  exact hdeps m ((g.step_iff_dependents n m).1 hm)
                · have hnotin : n ∉ node :: queue := by
                    intro hc
                    rcases List.mem_cons.1 hc with hc | hc
                    · exact heq hc
                    · exact hnq (List.mem_append_left _ hc)
                  obtain ⟨h1, h2⟩ := hproc n hn hnotin
                  exact ⟨h1, fun m hm => List.mem_append_left _ (h2 m hm)⟩
              · exact absurd (List.mem_append_right queue hn) hnq
            obtain ⟨hmem, hrest⟩ := ih (queue ++ new) (queued ++ new) hsub' hproc' hok
            exact ⟨fun n hn => hmem n (List.mem_append_left _ hn), hrest⟩

/-- A successful `cycle_check src dst` certifies that `src` is not reachable
from `dst` through the stored dependency relation. -/
theorem Graph.cycle_check_ok (g : Graph N P) (src dst : Nat)
    (h : (g.cycle_check src dst).2 = .ok ()) :
    ¬ Relation.ReflTransGen g.step dst src := by
  have h' : (g.cycleBfs src (g.nodeCount + 1) [dst] [dst]).1 = .ok () := by
    simpa [Graph.cycle_check] using h
  obtain ⟨hmem, hclosed⟩ := g.cycleBfs_ok src (g.nodeCount + 1) [dst] [dst]
    (by intro n hn; exact hn) (by intro n hn hq; exact absurd hn hq) h'
  intro hreach
  have hin : ∀ y, Relation.ReflTransGen g.step dst y →
      y ∈ (g.cycleBfs src (g.nodeCount + 1) [dst] [dst]).2.2 := by
    intro y hy
    induction hy with
    | refl => exact hmem dst (by simp)
    | tail _ hstep ih => exact (hclosed _ ih).2 _ hstep
  exact (hclosed src (hin src hreach)).1 rfl

/-- Adding the single pair `(s, d)` to an acyclic relation keeps it acyclic
when `s` is not reachable from `d`. -/
theorem acyclic_insert {R R' : Nat → Nat → Prop} {s d : Nat}
    (hacyc : ∀ n, ¬ Relation.TransGen R n n)
    (hreach : ¬ Relation.ReflTransGen R d s)
    (hsub : ∀ m n, R' m n → R m n ∨ (m = s ∧ n = d)) :
    ∀ n, ¬ Relation.TransGen R' n n := by
  have key : ∀ x y, Relation.ReflTransGen R' x y →
      Relation.ReflTransGen R x y ∨
        (Relation.ReflTransGen R x s ∧ Relation.ReflTransGen R d y) := by
    intro x y hxy
    induction hxy with
    | refl => exact Or.inl Relation.ReflTransGen.refl
    | tail _ hstep ih =>
        rcases hsub _ _ hstep with hR | ⟨hbs, hyd⟩
        · rcases ih with ih | ⟨ih1, ih2⟩
          · exact Or.inl (ih.tail hR)
          · exact Or.inr ⟨ih1, ih2.tail hR⟩
        · subst hbs; subst hyd
          rcases ih with ih | ⟨ih1, _⟩
          · exact Or.inr ⟨ih, Relation.ReflTransGen.refl⟩
          · exact Or.inr ⟨ih1, Relation.ReflTransGen.refl⟩
  intro n hn
  rcases Relation.TransGen.head'_iff.1 hn with ⟨b, hb, hbn⟩
  rcases hsub _ _ hb with hR | ⟨hns, hbd⟩
  · rcases key _ _ hbn with hk | ⟨hk1, hk2⟩
    · exact hacyc n (Relation.TransGen.head' hR hk)
    · exact hreach (hk2.trans (Relation.ReflTransGen.head hR hk1))
  · subst hns; subst hbd
    rcases key _ _ hbn with hk | ⟨hk, _⟩
    · exact hreach hk
    · exact hreach hk

/-!  Edge-set monotonicity of the mutating operations, and claim C3. -/

/-- Pointwise containment of adjacency lists. -/
def EdgeSub (g' g : Graph N P) : Prop :=
  ∀ m, g'.edgesAt m ⊆ g.edgesAt m

theorem edgeSub_refl {g : Graph N P} : EdgeSub g g := fun _ => List.Subset.refl _

theorem EdgeSub.trans {g1 g2 g3 : Graph N P} (h12 : EdgeSub g1 g2) (h23 : EdgeSub g2 g3) :
    EdgeSub g1 g3 := fun m => (h12 m).trans (h23 m)

theorem getD_set_subset (L : List (List Edge)) (k : Nat) (l : List Edge)
    (h : l ⊆ L.getD k []) : ∀ m, (L.set k l).getD m [] ⊆ L.getD m [] := by
  intro m
  by_cases hm : m = k
  · subst hm
    by_cases hk : m < L.length
    · simp only [List.getD_eq_getElem?_getD, List.getElem?_set_self hk]
      simpa using h
    · rw [List.set_eq_of_length_le (Nat.le_of_not_lt hk)]
      exact List.Subset.refl _
  · simp only [List.getD_eq_getElem?_getD, List.getElem?_set_ne (fun hc => hm hc.symm)]
    exact List.Subset.refl _

theorem EdgeSub.of_set {g : Graph N P} {k : Nat} {l : List Edge} (h : l ⊆ g.edgesAt k)
    {g' : Graph N P} (hg' : g'.edges = g.edges.set k l) : EdgeSub g' g := by
  intro m
  unfold Graph.edgesAt
  rw [hg']
  exact getD_set_subset g.edges k l h m

theorem EdgeSub.of_eq {g g' : Graph N P} (h : g'.edges = g.edges) : EdgeSub g' g := by
  intro m
  unfold Graph.edgesAt
  rw [h]
  exact List.Subset.refl _

theorem Graph.step_mono {g' g : Graph N P} (h : EdgeSub g' g) {m n : Nat}
    (hs : g'.step m n) : g.step m n := by
  obtain ⟨e, he, h1, h2⟩ := hs
  exact ⟨e, h m he, h1, h2⟩

theorem Graph.acyclic_of_edgeSub {g' g : Graph N P} (h : EdgeSub g' g)
    (hg : g.Acyclic) : g'.Acyclic := by
  intro n hn
  exact hg n (Relation.TransGen.mono (fun _ _ => Graph.step_mono h) hn)

theorem Graph.node_edgeSub (g : Graph N P) (ident : N) : EdgeSub (g.node ident).1 g := by
  unfold Graph.node
  cases hf : g.freeNodes with
  | cons n rest => exact EdgeSub.of_set (List.nil_subset _) rfl
  | nil =>
      intro m e he
      unfold Graph.edgesAt at he ⊢
      rw [List.getD_eq_getElem?_getD] at he ⊢
      by_cases hm : m < g.edges.length
      · rwa [List.getElem?_append_left hm] at he
      · by_cases hm' : m = g.edges.length
        · subst hm'
          rw [List.getElem?_append_right (le_refl _), Nat.sub_self] at he
          simp at he
        · rw [List.getElem?_eq_none
            (by simp only [List.length_append, List.length_cons, List.length_nil]; omega)] at he
          simp at he

theorem Graph.port_edgeSub (g : Graph N P) (n ty : Nat) (ident : P) :
    EdgeSub (g.port n ty ident).1 g := by
  unfold Graph.port
  by_cases hl : g.nodeLive n
  · simp only [if_pos hl]
    cases g.freePorts with
    | cons p rest => exact EdgeSub.of_eq rfl
    | nil => exact EdgeSub.of_eq rfl
  · simp only [if_neg hl]
    exact edgeSub_refl

theorem Graph.remove_edge_edgeSub (g : Graph N P) (e : Edge) :
    EdgeSub (g.remove_edge e).1 g := by
  unfold Graph.remove_edge
  cases (g.edgesAt e.srcNode).findIdx? (fun x => x.sameConn e) with
  | none => exact edgeSub_refl
  | some s =>
      cases (g.edgesAt e.dstNode).findIdx? (fun x => x.sameConn e) with
      | none => exact edgeSub_refl
      | some d =>
          exact EdgeSub.trans
            (EdgeSub.of_set (List.eraseIdx_subset _ _) rfl)
            (EdgeSub.of_set (List.eraseIdx_subset _ _) rfl)

theorem Graph.foldl_remove_edge_edgeSub (g : Graph N P) (l : List Edge) :
    EdgeSub (l.foldl (fun acc e => (acc.remove_edge e).1) g) g := by
  induction l generalizing g with
  | nil => exact edgeSub_refl
  | cons e l ih =>
      simp only [List.foldl_cons]
      exact EdgeSub.trans (ih (g.remove_edge e).1) (g.remove_edge_edgeSub e)

theorem Graph.delete_port_edgeSub (g : Graph N P) (p : Nat) :
    EdgeSub (g.delete_port p).1 g := by
  unfold Graph.delete_port
  by_cases hl : g.portLive p
  · simp only [if_pos hl]
    set node := (g.portDataAt p).1 with hn
    set g1 := ((g.edgesAt node).filter (fun e => e.dstPort == p || e.srcPort == p)).foldl
      (fun acc e => (acc.remove_edge e).1) g with hg1
    have hsub : EdgeSub g1 g := g.foldl_remove_edge_edgeSub _
    cases (g1.portsAt node).findIdx? (fun q => q == p) with
    | none => exact hsub
    | some i => exact EdgeSub.trans (EdgeSub.of_eq rfl) hsub
  · simp only [if_neg hl]
    exact edgeSub_refl

theorem Graph.delete_node_edgeSub (g : Graph N P) (n : Nat) :
    EdgeSub (g.delete_node n).1 g := by
  unfold Graph.delete_node
  by_cases hl : g.nodeLive n
  · simp only [if_pos hl]
    have : ∀ (l : List Nat) (g0 : Graph N P),
        EdgeSub (l.foldl (fun acc p => (acc.delete_port p).1) g0) g0 := by
      intro l
      induction l with
      | nil => intro g0; exact edgeSub_refl
      | cons p l ih =>
          intro g0
          simp only [List.foldl_cons]
          exact EdgeSub.trans (ih (g0.delete_port p).1) (g0.delete_port_edgeSub p)
    exact EdgeSub.trans (EdgeSub.of_eq rfl) (this _ g)
  · simp only [if_neg hl]
    exact edgeSub_refl

theorem Graph.disconnect_edgeSub (g : Graph N P) (src dst : Nat) :
    EdgeSub (g.disconnect src dst).1 g := by
  unfold Graph.disconnect
  by_cases h1 : ¬ g.portLive src
  · simp only [if_pos h1]; exact edgeSub_refl
  · simp only [if_neg h1]
    by_cases h2 : ¬ g.portLive dst
    · simp only [if_pos h2]; exact edgeSub_refl
    · simp only [if_neg h2]
      exact g.remove_edge_edgeSub _

/-- `cycle_check` changes only scratch state, so it leaves the edge set intact. -/
theorem Graph.cycle_check_edges (g : Graph N P) (src dst : Nat) :
    (g.cycle_check src dst).1.edges = g.edges := rfl

/-- Membership after setting index `k` to its old list with one appended edge:
an edge of the new store is an edge of the old store or the appended one. -/
theorem mem_getD_set_append (L : List (List Edge)) (k : Nat) (edge : Edge) (m : Nat) (e : Edge)
    (he : e ∈ (L.set k (L.getD k [] ++ [edge])).getD m []) : e ∈ L.getD m [] ∨ e = edge := by
  by_cases hm : m = k
  · subst hm
    by_cases hk : m < L.length
    · rw [List.getD_eq_getElem?_getD, List.getElem?_set_self hk, Option.getD_some] at he
      rcases List.mem_append.1 he with he | he
      · exact Or.inl (by simpa using he)
      · exact Or.inr (by simpa using he)
    · rw [List.set_eq_of_length_le (Nat.le_of_not_lt hk)] at he
      exact Or.inl he
  · rw [List.getD_eq_getElem?_getD, List.getElem?_set_ne (fun hc => hm hc.symm)] at he
    exact Or.inl (by simpa using he)

/-- Case analysis of `connect` for acyclicity: either the call leaves the edge
set unchanged, or the cycle guard succeeded and the call adds at most the node
pair it was called for to the dependency relation. -/
theorem Graph.connect_cases (g : Graph N P) (src dst : Nat) :
    (g.connect src dst).1.edges = g.edges ∨
      ((g.cycle_check (g.portDataAt src).1 (g.portDataAt dst).1).2 = .ok () ∧
        ∀ m n, (g.connect src dst).1.step m n →
          g.step m n ∨ (m = (g.portDataAt src).1 ∧ n = (g.portDataAt dst).1)) := by
  unfold Graph.connect
  by_cases h1 : ¬ g.portLive src
  · simp only [if_pos h1]; exact Or.inl trivial
  · simp only [if_neg h1]
    by_cases h2 : ¬ g.portLive dst
    · simp only [if_pos h2]; exact Or.inl trivial
    · simp only [if_neg h2]
      by_cases h3 : (g.portDataAt src).2 ≠ (g.portDataAt dst).2
      · simp only [if_pos h3]; exact Or.inl trivial
      · simp only [if_neg h3]
        by_cases h4 : (g.incoming dst).any (fun e => e.srcPort == src)
        · simp only [if_pos h4]; exact Or.inl trivial
        · simp only [if_neg h4]
          cases hcc : (g.cycle_check (g.portDataAt src).1 (g.portDataAt dst).1).2 with
          | error err =>
              exact Or.inl (g.cycle_check_edges (g.portDataAt src).1 (g.portDataAt dst).1)
          | ok u =>
              cases u
              refine Or.inr ⟨rfl, ?_⟩
              intro m n hstep
              dsimp only at hstep
              have hedges : (g.cycle_check (g.portDataAt src).1 (g.portDataAt dst).1).1.edges
                  = g.edges :=
                g.cycle_check_edges (g.portDataAt src).1 (g.portDataAt dst).1
              obtain ⟨e, he, hsrc, hdst⟩ := hstep
              rcases mem_getD_set_append _ _ _ _ _ he with he1 | he1
              · rcases mem_getD_set_append _ _ _ _ _ he1 with he0 | he0
                · refine Or.inl ⟨e, ?_, hsrc, hdst⟩
                  unfold Graph.edgesAt
                  rw [← hedges]
                  exact he0
                · subst he0
                  exact Or.inr ⟨hsrc.symm, hdst.symm⟩
              · subst he1
                exact Or.inr ⟨hsrc.symm, hdst.symm⟩

/-- `connect` preserves acyclicity: when the cycle guard succeeds, the inserted
pair is exactly the one certified unreachable. -/
theorem Graph.connect_acyclic (g : Graph N P) (src dst : Nat) (hacyc : g.Acyclic) :
    (g.connect src dst).1.Acyclic := by
  rcases g.connect_cases src dst with heq | ⟨hok, hsub⟩
  · exact Graph.acyclic_of_edgeSub (EdgeSub.of_eq heq) hacyc
  · have hreach := g.cycle_check_ok (g.portDataAt src).1 (g.portDataAt dst).1 hok
    exact acyclic_insert hacyc hreach (fun m n h => hsub m n h)

theorem Graph.set_delay_edges (g : Graph N P) (n d : Nat) :
    (g.set_delay n d).1.edges = g.edges := by
  unfold Graph.set_delay; split <;> rfl

theorem Graph.set_port_ident_edges (g : Graph N P) (p : Nat) (ident : P) :
    (g.set_port_ident p ident).1.edges = g.edges := by
  unfold Graph.set_port_ident; split <;> rfl

theorem Graph.set_node_ident_edges (g : Graph N P) (n : Nat) (ident : N) :
    (g.set_node_ident n ident).1.edges = g.edges := by
  unfold Graph.set_node_ident; split <;> rfl

/-- The mutating operations of the public API. -/
inductive Op (N P : Type) where
  | node (ident : N)
  | port (node : Nat) (ty : Nat) (ident : P)
  | delete_port (p : Nat)
  | delete_node (n : Nat)
  | connect (src dst : Nat)
  | disconnect (src dst : Nat)
  | set_delay (n : Nat) (d : Nat)
  | set_port_ident (p : Nat) (ident : P)
  | set_node_ident (n : Nat) (ident : N)

/-- The error component of a call result. -/
def errOf {A : Type} : Except Error A → Option Error
  | .ok _ => none
  | .error e => some e

/-- Apply one mutating call, keeping the resulting graph and the error it
reported (if any). -/
def Graph.applyOp (g : Graph N P) : Op N P → Graph N P × Option Error
  | .node ident => ((g.node ident).1, none)
  | .port n ty ident => ((g.port n ty ident).1, errOf (g.port n ty ident).2)
  | .delete_port p => ((g.delete_port p).1, errOf (g.delete_port p).2)
  | .delete_node n => ((g.delete_node n).1, errOf (g.delete_node n).2)
  | .connect src dst => ((g.connect src dst).1, errOf (g.connect src dst).2)
  | .disconnect src dst => ((g.disconnect src dst).1, errOf (g.disconnect src dst).2)
  | .set_delay n d => ((g.set_delay n d).1, errOf (g.set_delay n d).2)
  | .set_port_ident p ident => ((g.set_port_ident p ident).1, errOf (g.set_port_ident p ident).2)
  | .set_node_ident n ident => ((g.set_node_ident n ident).1, errOf (g.set_node_ident n ident).2)

/-- Apply a sequence of mutating calls. -/
def Graph.applyOps (g : Graph N P) (ops : List (Op N P)) : Graph N P :=
  ops.foldl (fun g op => (g.applyOp op).1) g

theorem Graph.applyOp_acyclic (g : Graph N P) (op : Op N P) (hacyc : g.Acyclic) :
    (g.applyOp op).1.Acyclic := by
  cases op with
  | node ident => exact Graph.acyclic_of_edgeSub (g.node_edgeSub ident) hacyc
  | port n ty ident => exact Graph.acyclic_of_edgeSub (g.port_edgeSub n ty ident) hacyc
  | delete_port p => exact Graph.acyclic_of_edgeSub (g.delete_port_edgeSub p) hacyc
  | delete_node n => exact Graph.acyclic_of_edgeSub (g.delete_node_edgeSub n) hacyc
  | connect src dst => exact g.connect_acyclic src dst hacyc
  | disconnect src dst => exact Graph.acyclic_of_edgeSub (g.disconnect_edgeSub src dst) hacyc
  | set_delay n d =>
      exact Graph.acyclic_of_edgeSub (EdgeSub.of_eq (g.set_delay_edges n d)) hacyc
  | set_port_ident p ident =>
      exact Graph.acyclic_of_edgeSub (EdgeSub.of_eq (g.set_port_ident_edges p ident)) hacyc
  | set_node_ident n ident =>
      exact Graph.acyclic_of_edgeSub (EdgeSub.of_eq (g.set_node_ident_edges n ident)) hacyc

/-- C3: starting from any graph whose edge set is acyclic, after any sequence of
mutation calls (successful connects counted, failing calls leaving the graph as
specified), the edge set contains no directed cycle among nodes. -/
theorem Graph.applyOps_acyclic (g : Graph N P) (hacyc : g.Acyclic) (ops : List (Op N P)) :
    (g.applyOps ops).Acyclic := by
  induction ops generalizing g with
  | nil => exact hacyc
  | cons op ops ih =>
      exact ih (g.applyOp op).1 (g.applyOp_acyclic op hacyc)

/-!  The data-model invariants (section 3 of the specification), stated over the
embedding.  All quantifiers are bounded, so the predicates are decidable and
can be checked on concrete graphs. -/

/-- Every stored edge is anchored at its list's node, joins live ports of live
nodes, and its recorded endpoints and type agree with the port data
(invariants 1, 2 and 5). -/
def Graph.EdgesWF (g : Graph N P) : Prop :=
  ∀ i < g.nodeCount, ∀ e ∈ g.edgesAt i,
    (e.srcNode = i ∨ e.dstNode = i) ∧
    g.nodeLive e.srcNode ∧ g.nodeLive e.dstNode ∧
    g.portLive e.srcPort ∧ g.portLive e.dstPort ∧
    g.portDataAt e.srcPort = (e.srcNode, e.ptype) ∧
    g.portDataAt e.dstPort = (e.dstNode, e.ptype)

/-- Stored edges from `m` to `n` in the list of node `i`, with multiplicity. -/
def Graph.ndCnt (g : Graph N P) (i m n : Nat) : Nat :=
  ((g.edgesAt i).filter (fun e => e.srcNode == m && e.dstNode == n)).length

/-- Bidirectional incidence with multiplicity at node granularity (invariant 4):
each stored edge occurs equally often in its source and destination lists. -/
def Graph.BidirNodesWF (g : Graph N P) : Prop :=
  ∀ i < g.nodeCount, ∀ e ∈ g.edgesAt i,
    g.ndCnt e.srcNode e.srcNode e.dstNode = g.ndCnt e.dstNode e.srcNode e.dstNode

/-- Stored edges with port pair `(a, b)` in the list of node `i`. -/
def Graph.ppCnt (g : Graph N P) (i a b : Nat) : Nat :=
  ((g.edgesAt i).filter (fun e => e.srcPort == a && e.dstPort == b)).length

/-- Bidirectional incidence at port granularity: each stored edge appears
exactly once in its source list and exactly once in its destination list
(invariant 4 together with edge identity by port pair). -/
def Graph.BidirPortsWF (g : Graph N P) : Prop :=
  ∀ i < g.nodeCount, ∀ e ∈ g.edgesAt i,
    g.ppCnt e.srcNode e.srcPort e.dstPort = 1 ∧ g.ppCnt e.dstNode e.srcPort e.dstPort = 1

/-- Port membership lists and port data agree; live ports sit in their owner's
list, owners are live, and port types are below the type cardinality. -/
def Graph.PortsWF (g : Graph N P) : Prop :=
  (∀ i < g.nodeCount, i ∉ g.freeNodes → (g.portsAt i).Nodup ∧
      ∀ p ∈ g.portsAt i, g.portLive p ∧ (g.portDataAt p).1 = i) ∧
  (∀ p < g.portCount, p ∉ g.freePorts →
      g.nodeLive (g.portDataAt p).1 ∧ p ∈ g.portsAt (g.portDataAt p).1 ∧
      (g.portDataAt p).2 < g.numTypes)

/-- The dense vectors all have matching lengths and the allocator has one entry
per port type. -/
def Graph.LensWF (g : Graph N P) : Prop :=
  g.edges.length = g.nodeCount ∧ g.delays.length = g.nodeCount ∧
  g.nodeIdents.length = g.nodeCount ∧ g.portIdents.length = g.portCount ∧
  g.heapStore.allocator.bufferCountStacks.length = g.numTypes

/-- The data-model invariants that hold between mutating calls (acyclicity is
kept separate as `Graph.Acyclic`). -/
def Graph.WF (g : Graph N P) : Prop :=
  g.EdgesWF ∧ g.BidirNodesWF ∧ g.BidirPortsWF ∧ g.PortsWF ∧ g.LensWF

instance (g : Graph N P) : Decidable g.EdgesWF := by
  unfold Graph.EdgesWF; infer_instance

instance (g : Graph N P) : Decidable g.BidirNodesWF := by
  unfold Graph.BidirNodesWF; infer_instance

instance (g : Graph N P) : Decidable g.BidirPortsWF := by
  unfold Graph.BidirPortsWF; infer_instance

instance (g : Graph N P) : Decidable g.PortsWF := by
  unfold Graph.PortsWF; infer_instance

instance (g : Graph N P) : Decidable g.LensWF := by
  unfold Graph.LensWF; infer_instance

instance (g : Graph N P) : Decidable g.WF := by
  unfold Graph.WF; infer_instance

/-!  Concrete graphs used to witness the general theorems, all built through
the public mutation API. -/

set_option maxRecDepth 10000

/-- The chain `A -> B -> C -> D` of scenario S4: four nodes, each carrying one
Audio output port and one Audio input port, connected in series.  Handles:
nodes `A,B,C,D = 0,1,2,3`; ports `out_X, in_X = 2X, 2X+1`. -/
def chainGraph : Graph String String :=
  let g := mkGraph String String 2
  let g := (g.node "A").1
  let g := (g.node "B").1
  let g := (g.node "C").1
  let g := (g.node "D").1
  let g := (g.port 0 0 "out").1
  let g := (g.port 0 0 "in").1
  let g := (g.port 1 0 "out").1
  let g := (g.port 1 0 "in").1
  let g := (g.port 2 0 "out").1
  let g := (g.port 2 0 "in").1
  let g := (g.port 3 0 "out").1
  let g := (g.port 3 0 "in").1
  let g := (g.connect 0 3).1
  let g := (g.connect 2 5).1
  let g := (g.connect 4 7).1
  g

/-- Two nodes with one Audio port each (`A.out = 0`, `B.in = 1`), not connected. -/
def pairGraph : Graph String String :=
  let g := mkGraph String String 2
  let g := (g.node "A").1
  let g := (g.node "B").1
  let g := (g.port 0 0 "out").1
  let g := (g.port 1 0 "in").1
  g

/-- One node with two Audio ports (`0` and `1`). -/
def twoPortGraph : Graph String String :=
  let g := mkGraph String String 2
  let g := (g.node "A").1
  let g := (g.port 0 0 "p").1
  let g := (g.port 0 0 "q").1
  g

/-- A small fan: `A.out(0) -> B.in(2)`, `A.out(0) -> C.in(3)`, `B.out(1) -> C.in2(4)`.
Nodes `A,B,C = 0,1,2`; ports `A.out = 0`, `B.out = 1`, `B.in = 2`, `C.in = 3`,
`C.in2 = 4`. -/
def fanGraph : Graph String String :=
  let g := mkGraph String String 2
  let g := (g.node "A").1
  let g := (g.node "B").1
  let g := (g.node "C").1
  let g := (g.port 0 0 "out").1
  let g := (g.port 1 0 "out").1
  let g := (g.port 1 0 "in").1
  let g := (g.port 2 0 "in").1
  let g := (g.port 2 0 "in2").1
  let g := (g.connect 0 2).1
  let g := (g.connect 0 3).1
  let g := (g.connect 1 4).1
  g

/-- All Audio-type (index `0`) buffer indices mentioned anywhere in a schedule,
across input and output assignments, in order of appearance. -/
def audioIndices (sched : List (Scheduled String String)) : List Nat :=
  sched.foldl (fun acc s =>
    acc ++ (s.inputs.foldl (fun acc2 ip =>
      acc2 ++ (ip.2.filterMap (fun bd => if bd.1.btype = 0 then some bd.1.index else none))) [])
      ++ (s.outputs.filterMap (fun ob => if ob.2.btype = 0 then some ob.2.index else none))) []

/-!  Claim C3. -/

/-- C3: starting from any graph whose edge set is acyclic, after any sequence
of mutation calls (every successful `connect` counted, calls returning errors
leaving the graph as the code specifies), the edge set contains no directed
cycle among nodes. -/
theorem claim3_acyclicity_preserved (g : Graph N P) (hacyc : g.Acyclic)
    (ops : List (Op N P)) : (g.applyOps ops).Acyclic :=
  g.applyOps_acyclic hacyc ops

/-- Witness for C3 at a concrete graph and operation list: build the S4 chain
from the empty graph (an acyclic starting point) and observe acyclicity of the
result. -/
theorem claim3_witness :
    (mkGraph String String 2).Acyclic ∧
      ((mkGraph String String 2).applyOps
        [Op.node "A", Op.node "B", Op.port 0 0 "out", Op.port 1 0 "in",
         Op.connect 0 1, Op.connect 0 1, Op.disconnect 0 1, Op.connect 0 1,
         Op.set_delay 1 3, Op.delete_port 0]).Acyclic := by
  have h0 : (mkGraph String String 2).Acyclic :=
    Graph.acyclic_of_edge_rank (mkGraph String String 2) id (by decide)
  exact ⟨h0, claim3_acyclicity_preserved (mkGraph String String 2) h0 _⟩

/-!  Claim C9 (corrected): the scratch containers are cleared at the start of
each cycle check, not after connect returns. -/

/-- The graph with the cycle-walk scratch containers replaced. -/
def Graph.withScratch (g : Graph N P) (q s : List Nat) : Graph N P :=
  { g with heapStore := { g.heapStore with walkQueue := q, cycleQueued := s } }

/-- The cycle walk reads the graph only through the edge lists. -/
theorem Graph.cycleBfs_congr (g g' : Graph N P) (h : g.edges = g'.edges) (src : Nat) :
    ∀ fuel queue queued, g.cycleBfs src fuel queue queued = g'.cycleBfs src fuel queue queued := by
  intro fuel
  induction fuel with
  | zero => intro queue queued; rfl
  | succ fuel ih =>
      intro queue queued
      cases queue with
      | nil => rfl
      | cons node rest =>
          unfold Graph.cycleBfs
          by_cases hn : node = src
          · rw [if_pos hn, if_pos hn]
          · rw [if_neg hn, if_neg hn]
            have hdep : g.dependents node = g'.dependents node := by
              unfold Graph.dependents Graph.edgesAt; rw [h]
            rw [hdep]
            exact ih _ _

/-- C9 (amended): the cycle guard clears its scratch queue and visited set at
the start of every call, so the outcome of `cycle_check` — its result and the
entire resulting graph, scratch included — is independent of whatever contents
the containers held beforehand.  (The containers are not cleared after the
call: see the counterexample.) -/
theorem claim9_scratch_cleared_at_start (g : Graph N P) (src dst : Nat)
    (q s q' s' : List Nat) :
    (g.withScratch q s).cycle_check src dst = (g.withScratch q' s').cycle_check src dst := by
  unfold Graph.cycle_check
  have hb := Graph.cycleBfs_congr (g.withScratch q s) (g.withScratch q' s') rfl src
    ((g.withScratch q s).nodeCount + 1) [dst] [dst]
  rw [hb]
  rfl

/-- Counterexample to C9 as stated: after a successful `connect` the visited
set still holds the nodes of the walk — it is cleared before use, not after. -/
theorem claim9_counterexample :
    (pairGraph.connect 0 1).2 = .ok () ∧
      (pairGraph.connect 0 1).1.heapStore.cycleQueued ≠ [] := by
  exact ⟨by decide, by decide⟩

/-!  Claim C6 (corrected): connecting two distinct ports of the same node is
always rejected with `Cycle`, because the single edge would itself close a
node-level cycle and the walk sees `src == dst` immediately. -/

/-- Under the invariants no stored edge joins two ports of the same node, so
the idempotence scan of `connect` cannot fire for same-node ports. -/
theorem Graph.no_same_node_edge (g : Graph N P) (hwf : g.WF) (hacyc : g.Acyclic)
    {p q : Nat} (hq : g.portLive q)
    (howner : (g.portDataAt p).1 = (g.portDataAt q).1) :
    ¬ ((g.incoming q).any (fun e => e.srcPort == p) = true) := by
  intro hany
  obtain ⟨e, hmem, hsrc⟩ := List.any_eq_true.1 hany
  rw [beq_iff_eq] at hsrc
  obtain ⟨he, hdstp⟩ := List.mem_filter.1 hmem
  rw [beq_iff_eq] at hdstp
  obtain ⟨hwfE, _, _, hports, _⟩ := hwf
  have hqlive := (hports.2 q hq.1 hq.2).1
  have hei := hwfE (g.portDataAt q).1 hqlive.1 e he
  have hsrcNode : e.srcNode = (g.portDataAt q).1 := by
    have hthis := hei.2.2.2.2.2.1
    rw [hsrc] at hthis
    exact (congrArg Prod.fst hthis).symm.trans howner
  have hdstNode : e.dstNode = (g.portDataAt q).1 := by
    have hthis := hei.2.2.2.2.2.2
    rw [hdstp] at hthis
    exact (congrArg Prod.fst hthis).symm
  exact hacyc (g.portDataAt q).1
    (Relation.TransGen.single ⟨e, he, hsrcNode, hdstNode⟩)

/-- C6 (amended): for two distinct live ports owned by the same node with the
same port type, on an invariant-satisfying acyclic graph, `connect` always
returns `Err(Cycle)`: the walk starts at the destination node, which equals the
source node, and rejects immediately. -/
theorem claim6_same_node_rejected (g : Graph N P) (hwf : g.WF) (hacyc : g.Acyclic)
    (p q : Nat) (hp : g.portLive p) (hq : g.portLive q) (hne : p ≠ q)
    (howner : (g.portDataAt p).1 = (g.portDataAt q).1)
    (htype : (g.portDataAt p).2 = (g.portDataAt q).2) :
    (g.connect p q).2 = .error .cycle := by
  have hcc : (g.cycle_check (g.portDataAt p).1 (g.portDataAt q).1).2 = .error .cycle := by
    unfold Graph.cycle_check
    show (g.cycleBfs (g.portDataAt p).1 (g.nodeCount + 1)
      [(g.portDataAt q).1] [(g.portDataAt q).1]).1 = _
    unfold Graph.cycleBfs
    rw [if_pos howner.symm]
  unfold Graph.connect
  rw [if_neg (not_not_intro hp), if_neg (not_not_intro hq),
    if_neg (not_not_intro htype), if_neg (g.no_same_node_edge hwf hacyc hq howner)]
  rw [hcc]

/-- Witness for the amended C6 at the one-node two-port graph. -/
theorem claim6_witness :
    twoPortGraph.WF ∧ (twoPortGraph.connect 0 1).2 = .error .cycle := by
  have hacyc : twoPortGraph.Acyclic :=
    Graph.acyclic_of_edge_rank twoPortGraph id (by decide)
  exact ⟨by decide, claim6_same_node_rejected twoPortGraph (by decide) hacyc 0 1
    (by decide) (by decide) (by decide) (by decide) (by decide)⟩

/-- Counterexample to C6 as stated: a fully acyclic invariant-satisfying graph
with two distinct same-type ports on one node, where `connect` nevertheless
returns `Err(Cycle)` instead of success — the requested edge itself closes a
node-level cycle, so the claim's premise can never hold of a same-node pair. -/
theorem claim6_counterexample :
    twoPortGraph.Acyclic ∧ twoPortGraph.WF ∧
      twoPortGraph.portLive 0 ∧ twoPortGraph.portLive 1 ∧ (0 : Nat) ≠ 1 ∧
      (twoPortGraph.portDataAt 0).1 = (twoPortGraph.portDataAt 1).1 ∧
      (twoPortGraph.portDataAt 0).2 = (twoPortGraph.portDataAt 1).2 ∧
      (twoPortGraph.connect 0 1).2 = .error .cycle :=
  ⟨Graph.acyclic_of_edge_rank twoPortGraph id (by decide), by decide, by decide,
    by decide, by decide, by decide, by decide, by decide⟩

/-!  Claim C8: buffer reuse on the chain. -/

/-- C8: compiling the chain `A -> B -> C -> D` (one Audio output and one Audio
input port per node, connected in series) uses exactly two distinct Audio
buffer indices across all input and output assignments of the schedule. -/
theorem claim8_chain_two_buffers :
    (audioIndices (chainGraph.compile).2).dedup.length = 2 := by
  decide

/-!  Claim C10: `compile` mutates only the heap store. -/

/-- C10: `compile` does not mutate the graph proper — the adjacency lists, port
lists, port data, delays, identifiers and both free lists are untouched; only
the scratch heap store changes. -/
theorem claim10_compile_pure [Inhabited N] [Inhabited P] (g : Graph N P) :
    g.compile.1.edges = g.edges ∧ g.compile.1.ports = g.ports ∧
      g.compile.1.delays = g.delays ∧ g.compile.1.portData = g.portData ∧
      g.compile.1.portIdents = g.portIdents ∧ g.compile.1.nodeIdents = g.nodeIdents ∧
      g.compile.1.freeNodes = g.freeNodes ∧ g.compile.1.freePorts = g.freePorts :=
  ⟨rfl, rfl, rfl, rfl, rfl, rfl, rfl, rfl⟩

/-!  Claim C7: mutating operations are all-or-nothing. -/

/-- Equality of the graph proper: nodes, ports, edges, delays, identifiers and
free lists (the scratch heap store is excluded; the claim lists exactly these
components). -/
def CoreEq (g' g : Graph N P) : Prop :=
  g'.edges = g.edges ∧ g'.ports = g.ports ∧ g'.delays = g.delays ∧
    g'.portData = g.portData ∧ g'.portIdents = g.portIdents ∧
    g'.nodeIdents = g.nodeIdents ∧ g'.freeNodes = g.freeNodes ∧ g'.freePorts = g.freePorts

theorem coreEq_refl {g : Graph N P} : CoreEq g g :=
  ⟨Eq.refl _, Eq.refl _, Eq.refl _, Eq.refl _, Eq.refl _, Eq.refl _, Eq.refl _, Eq.refl _⟩

theorem Graph.remove_edge_ports (g : Graph N P) (e : Edge) :
    (g.remove_edge e).1.ports = g.ports := by
  unfold Graph.remove_edge
  cases (g.edgesAt e.srcNode).findIdx? (fun x => x.sameConn e) with
  | none => rfl
  | some s =>
      cases (g.edgesAt e.dstNode).findIdx? (fun x => x.sameConn e) with
      | none => rfl
      | some d => rfl

theorem Graph.foldl_remove_edge_ports (g : Graph N P) (l : List Edge) :
    (l.foldl (fun acc e => (acc.remove_edge e).1) g).ports = g.ports := by
  induction l generalizing g with
  | nil => rfl
  | cons e l ih =>
      simp only [List.foldl_cons]
      rw [ih ((g.remove_edge e).1), g.remove_edge_ports e]

/-- C7: every mutating operation is all-or-nothing — on an invariant-satisfying
graph, a call that returns an error leaves the graph proper (nodes, ports,
edges, delays, identifiers, free lists) exactly as it was. -/
theorem claim7_errors_all_or_nothing (g : Graph N P) (hwf : g.WF) (op : Op N P)
    (err : Error) (herr : (g.applyOp op).2 = some err) : CoreEq (g.applyOp op).1 g := by
  cases op with
  | node ident => simp [Graph.applyOp] at herr
  | port n ty ident =>
      dsimp only [Graph.applyOp] at herr ⊢
      unfold Graph.port at herr ⊢
      by_cases hl : g.nodeLive n
      · exfalso
        rw [if_pos hl] at herr
        cases hfp : g.freePorts with
        | cons p rest => rw [hfp] at herr; simp [errOf] at herr
        | nil => rw [hfp] at herr; simp [errOf] at herr
      · rw [if_neg hl]
        exact coreEq_refl
  | delete_port p =>
      dsimp only [Graph.applyOp] at herr ⊢
      unfold Graph.delete_port at herr ⊢
      dsimp only at herr ⊢
      by_cases hl : g.portLive p
      · rw [if_pos hl] at herr ⊢
        have hports : (((g.edgesAt (g.portDataAt p).1).filter
            (fun e => e.dstPort == p || e.srcPort == p)).foldl
              (fun acc e => (acc.remove_edge e).1) g).ports = g.ports :=
          g.foldl_remove_edge_ports _
        have hmem : p ∈ (((g.edgesAt (g.portDataAt p).1).filter
            (fun e => e.dstPort == p || e.srcPort == p)).foldl
              (fun acc e => (acc.remove_edge e).1) g).portsAt (g.portDataAt p).1 := by
          have hin := (hwf.2.2.2.1.2 p hl.1 hl.2).2.1
          unfold Graph.portsAt
          rw [hports]
          exact hin
        cases hidx : ((((g.edgesAt (g.portDataAt p).1).filter
            (fun e => e.dstPort == p || e.srcPort == p)).foldl
              (fun acc e => (acc.remove_edge e).1) g).portsAt (g.portDataAt p).1).findIdx?
                (fun q => q == p) with
        | none =>
            exfalso
            have hall := List.findIdx?_eq_none_iff.1 hidx p hmem
            simp at hall
        | some i =>
            rw [hidx] at herr
            simp [errOf] at herr
      · rw [if_neg hl]
        exact coreEq_refl
  | delete_node n =>
      dsimp only [Graph.applyOp] at herr ⊢
      unfold Graph.delete_node at herr ⊢
      by_cases hl : g.nodeLive n
      · rw [if_pos hl] at herr
        simp [errOf] at herr
      · rw [if_neg hl]
        exact coreEq_refl
  | connect src dst =>
      dsimp only [Graph.applyOp] at herr ⊢
      unfold Graph.connect at herr ⊢
      dsimp only at herr ⊢
      by_cases h1 : ¬ g.portLive src
      · rw [if_pos h1]; exact coreEq_refl
      · rw [if_neg h1] at herr ⊢
        by_cases h2 : ¬ g.portLive dst
        · rw [if_pos h2]; exact coreEq_refl
        · rw [if_neg h2] at herr ⊢
          by_cases h3 : (g.portDataAt src).2 ≠ (g.portDataAt dst).2
          · rw [if_pos h3]; exact coreEq_refl
          · rw [if_neg h3] at herr ⊢
            by_cases h4 : (g.incoming dst).any (fun e => e.srcPort == src)
            · rw [if_pos h4] at herr
              simp [errOf] at herr
            · rw [if_neg h4] at herr ⊢
              cases hcc : (g.cycle_check (g.portDataAt src).1 (g.portDataAt dst).1).2 with
              | error e2 => exact ⟨rfl, rfl, rfl, rfl, rfl, rfl, rfl, rfl⟩
              | ok u => rw [hcc] at herr; simp [errOf] at herr
  | disconnect src dst =>
      dsimp only [Graph.applyOp] at herr ⊢
      unfold Graph.disconnect at herr ⊢
      dsimp only at herr ⊢
      by_cases h1 : ¬ g.portLive src
      · rw [if_pos h1]; exact coreEq_refl
      · rw [if_neg h1] at herr ⊢
        by_cases h2 : ¬ g.portLive dst
        · rw [if_pos h2]; exact coreEq_refl
        · rw [if_neg h2] at herr ⊢
          unfold Graph.remove_edge at herr ⊢
          dsimp only at herr ⊢
          cases hf1 : (g.edgesAt (g.portDataAt src).1).findIdx?
              (fun x => x.sameConn ⟨(g.portDataAt src).1, src, (g.portDataAt dst).1, dst,
                (g.portDataAt src).2⟩) with
          | none => exact coreEq_refl
          | some s =>
              cases hf2 : (g.edgesAt (g.portDataAt dst).1).findIdx?
                  (fun x => x.sameConn ⟨(g.portDataAt src).1, src, (g.portDataAt dst).1, dst,
                    (g.portDataAt src).2⟩) with
              | none => exact coreEq_refl
              | some d => rw [hf1, hf2] at herr; simp [errOf] at herr
  | set_delay n d =>
      dsimp only [Graph.applyOp] at herr ⊢
      unfold Graph.set_delay at herr ⊢
      by_cases hl : g.nodeLive n
      · rw [if_pos hl] at herr; simp [errOf] at herr
      · rw [if_neg hl]; exact coreEq_refl
  | set_port_ident p ident =>
      dsimp only [Graph.applyOp] at herr ⊢
      unfold Graph.set_port_ident at herr ⊢
      by_cases hl : g.portLive p
      · rw [if_pos hl] at herr; simp [errOf] at herr
      · rw [if_neg hl]; exact coreEq_refl
  | set_node_ident n ident =>
      dsimp only [Graph.applyOp] at herr ⊢
      unfold Graph.set_node_ident at herr ⊢
      by_cases hl : g.nodeLive n
      · rw [if_pos hl] at herr; simp [errOf] at herr
      · rw [if_neg hl]; exact coreEq_refl

/-- Witness for C7: a failing `set_delay` on the chain graph leaves it intact. -/
theorem claim7_witness :
    chainGraph.WF ∧ (chainGraph.applyOp (Op.set_delay 9 5)).2 = some Error.nodeDoesNotExist ∧
      CoreEq (chainGraph.applyOp (Op.set_delay 9 5)).1 chainGraph :=
  ⟨by decide, by decide,
    claim7_errors_all_or_nothing chainGraph (by decide) (Op.set_delay 9 5)
      Error.nodeDoesNotExist (by decide)⟩

/-!  Claim C5: idempotence of `connect`. -/

/-- The edge record `connect` builds on success. -/
def Graph.connEdge (g : Graph N P) (a b : Nat) : Edge :=
  ⟨(g.portDataAt a).1, a, (g.portDataAt b).1, b, (g.portDataAt a).2⟩

theorem Graph.portLive_congr {g g' : Graph N P} (hpd : g'.portData = g.portData)
    (hfp : g'.freePorts = g.freePorts) (p : Nat) : g'.portLive p ↔ g.portLive p := by
  unfold Graph.portLive Graph.portCount
  rw [hpd, hfp]

theorem Graph.portDataAt_congr {g g' : Graph N P} (hpd : g'.portData = g.portData) (p : Nat) :
    g'.portDataAt p = g.portDataAt p := by
  unfold Graph.portDataAt; rw [hpd]

theorem Graph.connect_err_srcdead (g : Graph N P) (a b : Nat) (h1 : ¬ g.portLive a) :
    (g.connect a b).2 = .error .portDoesNotExist := by
  unfold Graph.connect; rw [if_pos h1]

theorem Graph.connect_err_dstdead (g : Graph N P) (a b : Nat) (h1 : g.portLive a)
    (h2 : ¬ g.portLive b) : (g.connect a b).2 = .error .portDoesNotExist := by
  unfold Graph.connect; rw [if_neg (not_not_intro h1), if_pos h2]

theorem Graph.connect_err_type (g : Graph N P) (a b : Nat) (h1 : g.portLive a)
    (h2 : g.portLive b) (h3 : (g.portDataAt a).2 ≠ (g.portDataAt b).2) :
    (g.connect a b).2 = .error .invalidPortType := by
  unfold Graph.connect
  rw [if_neg (not_not_intro h1), if_neg (not_not_intro h2), if_pos h3]

/-- `connect` on an already-present edge: success without modification. -/
theorem Graph.connect_already (g : Graph N P) (a b : Nat) (h1 : g.portLive a)
    (h2 : g.portLive b) (h3 : (g.portDataAt a).2 = (g.portDataAt b).2)
    (h4 : (g.incoming b).any (fun e => e.srcPort == a) = true) :
    g.connect a b = (g, .ok ()) := by
  unfold Graph.connect
  rw [if_neg (not_not_intro h1), if_neg (not_not_intro h2),
    if_neg (not_not_intro h3), if_pos h4]

theorem Graph.connect_err_cycle (g : Graph N P) (a b : Nat) (h1 : g.portLive a)
    (h2 : g.portLive b) (h3 : (g.portDataAt a).2 = (g.portDataAt b).2)
    (h4 : ¬ ((g.incoming b).any (fun e => e.srcPort == a) = true)) (er : Error)
    (hcc : (g.cycle_check (g.portDataAt a).1 (g.portDataAt b).1).2 = .error er) :
    (g.connect a b).2 = .error er := by
  unfold Graph.connect
  rw [if_neg (not_not_intro h1), if_neg (not_not_intro h2),
    if_neg (not_not_intro h3), if_neg h4, hcc]

/-- The shape of a `connect` that actually inserts an edge. -/
theorem Graph.connect_ok_fields (g : Graph N P) (a b : Nat) (h1 : g.portLive a)
    (h2 : g.portLive b) (h3 : (g.portDataAt a).2 = (g.portDataAt b).2)
    (h4 : ¬ ((g.incoming b).any (fun e => e.srcPort == a) = true))
    (hcc : (g.cycle_check (g.portDataAt a).1 (g.portDataAt b).1).2 = .ok ()) :
    (g.connect a b).2 = .ok () ∧
      (g.connect a b).1.edges
        = (g.edges.set (g.portDataAt a).1 (g.edgesAt (g.portDataAt a).1 ++ [g.connEdge a b])).set
            (g.portDataAt b).1
            ((g.edges.set (g.portDataAt a).1
                (g.edgesAt (g.portDataAt a).1 ++ [g.connEdge a b])).getD (g.portDataAt b).1 []
              ++ [g.connEdge a b]) ∧
      (g.connect a b).1.ports = g.ports ∧
      (g.connect a b).1.portData = g.portData ∧
      (g.connect a b).1.freePorts = g.freePorts := by
  unfold Graph.connect
  rw [if_neg (not_not_intro h1), if_neg (not_not_intro h2),
    if_neg (not_not_intro h3), if_neg h4, hcc]
  exact ⟨rfl, rfl, rfl, rfl, rfl⟩

/-- C5: idempotence of `connect` — on an invariant-satisfying graph, if
`connect a b` succeeds, then a second `connect a b` also succeeds and leaves
the graph (scratch included) entirely unchanged, and afterwards exactly one
edge with port pair `(a, b)` is stored in each endpoint node's adjacency
list. -/
theorem claim5_connect_idempotent (g : Graph N P) (hwf : g.WF) (a b : Nat)
    (hok : (g.connect a b).2 = .ok ()) :
    (g.connect a b).1.connect a b = ((g.connect a b).1, .ok ()) ∧
      Graph.ppCnt (g.connect a b).1 (g.portDataAt a).1 a b = 1 ∧
      Graph.ppCnt (g.connect a b).1 (g.portDataAt b).1 a b = 1 := by
  obtain ⟨hwfE, hbn, hbp, hports, hlens⟩ := hwf
  by_cases h1 : g.portLive a
  case neg => rw [g.connect_err_srcdead a b h1] at hok; simp at hok
  by_cases h2 : g.portLive b
  case neg => rw [g.connect_err_dstdead a b h1 h2] at hok; simp at hok
  by_cases h3 : (g.portDataAt a).2 = (g.portDataAt b).2
  case neg => rw [g.connect_err_type a b h1 h2 h3] at hok; simp at hok
  have hsl : g.nodeLive (g.portDataAt a).1 := (hports.2 a h1.1 h1.2).1
  have hdl : g.nodeLive (g.portDataAt b).1 := (hports.2 b h2.1 h2.2).1
  by_cases h4 : (g.incoming b).any (fun e => e.srcPort == a) = true
  · -- the edge is already present: the call is a no-op both times
    have hearly := g.connect_already a b h1 h2 h3 h4
    obtain ⟨e, hein, hsrcp⟩ := List.any_eq_true.1 h4
    rw [beq_iff_eq] at hsrcp
    obtain ⟨he, hdstp⟩ := List.mem_filter.1 hein
    rw [beq_iff_eq] at hdstp
    have hei := hwfE (g.portDataAt b).1 hdl.1 e he
    have hsn : e.srcNode = (g.portDataAt a).1 := by
      have hx := hei.2.2.2.2.2.1
      rw [hsrcp] at hx
      exact (congrArg Prod.fst hx).symm
    have hdn : e.dstNode = (g.portDataAt b).1 := by
      have hx := hei.2.2.2.2.2.2
      rw [hdstp] at hx
      exact (congrArg Prod.fst hx).symm
    have hcnt := hbp (g.portDataAt b).1 hdl.1 e he
    rw [hsn, hdn, hsrcp, hdstp] at hcnt
    refine ⟨?_, ?_, ?_⟩
    · rw [hearly]; exact hearly
    · rw [hearly]; exact hcnt.1
    · rw [hearly]; exact hcnt.2
  · cases hcc : (g.cycle_check (g.portDataAt a).1 (g.portDataAt b).1).2 with
    | error er => rw [g.connect_err_cycle a b h1 h2 h3 h4 er hcc] at hok; simp at hok
    | ok u =>
        cases u
        have hreach := g.cycle_check_ok (g.portDataAt a).1 (g.portDataAt b).1 hcc
        have hne_sd : (g.portDataAt a).1 ≠ (g.portDataAt b).1 := by
          intro hsd
          exact hreach (hsd ▸ Relation.ReflTransGen.refl)
        obtain ⟨-, hE, hP, hD, hF⟩ := g.connect_ok_fields a b h1 h2 h3 h4 hcc
        have hslen : (g.portDataAt a).1 < g.edges.length := by rw [hlens.1]; exact hsl.1
        have hdlen : (g.portDataAt b).1 < g.edges.length := by rw [hlens.1]; exact hdl.1
        -- the two updated adjacency lists
        have hAtD : (g.connect a b).1.edgesAt (g.portDataAt b).1
            = g.edgesAt (g.portDataAt b).1 ++ [g.connEdge a b] := by
          unfold Graph.edgesAt
          rw [hE]
          rw [List.getD_eq_getElem?_getD, List.getElem?_set_self (by simpa using hdlen),
            Option.getD_some, List.getD_eq_getElem?_getD,
            List.getElem?_set_ne (fun hc => hne_sd hc), List.getD_eq_getElem?_getD]
        have hAtS : (g.connect a b).1.edgesAt (g.portDataAt a).1
            = g.edgesAt (g.portDataAt a).1 ++ [g.connEdge a b] := by
          unfold Graph.edgesAt
          rw [hE]
          rw [List.getD_eq_getElem?_getD, List.getElem?_set_ne (fun hc => hne_sd hc.symm),
            List.getElem?_set_self hslen, Option.getD_some]
          rfl
        -- no pre-existing edge with this port pair, in either list
        have hcntD0 : Graph.ppCnt g (g.portDataAt b).1 a b = 0 := by
          by_contra hpos
          have hnil : (g.edgesAt (g.portDataAt b).1).filter
              (fun e => e.srcPort == a && e.dstPort == b) ≠ [] := by
            intro hceq
            exact hpos (by unfold Graph.ppCnt; rw [hceq]; rfl)
          obtain ⟨e, hmem⟩ := List.exists_mem_of_ne_nil _ hnil
          obtain ⟨he, hpp⟩ := List.mem_filter.1 hmem
          rw [Bool.and_eq_true, beq_iff_eq, beq_iff_eq] at hpp
          refine h4 (List.any_eq_true.2 ⟨e, List.mem_filter.2 ⟨he, ?_⟩, ?_⟩)
          · rw [hpp.2]; exact beq_self_eq_true b
          · rw [hpp.1]; exact beq_self_eq_true a
        have hcntS0 : Graph.ppCnt g (g.portDataAt a).1 a b = 0 := by
          by_contra hpos
          have hnil : (g.edgesAt (g.portDataAt a).1).filter
              (fun e => e.srcPort == a && e.dstPort == b) ≠ [] := by
            intro hceq
            exact hpos (by unfold Graph.ppCnt; rw [hceq]; rfl)
          obtain ⟨e, hmem⟩ := List.exists_mem_of_ne_nil _ hnil
          obtain ⟨he, hpp⟩ := List.mem_filter.1 hmem
          rw [Bool.and_eq_true, beq_iff_eq, beq_iff_eq] at hpp
          have hei := hwfE (g.portDataAt a).1 hsl.1 e he
          have hdn : e.dstNode = (g.portDataAt b).1 := by
            have hx := hei.2.2.2.2.2.2
            rw [hpp.2] at hx
            exact (congrArg Prod.fst hx).symm
          have hcnt := hbp (g.portDataAt a).1 hsl.1 e he
          rw [hdn, hpp.1, hpp.2] at hcnt
          rw [hcnt.2] at hcntD0
          · exact Nat.one_ne_zero hcntD0
        -- the appended edge matches the port pair
        have hfilterEdge : [g.connEdge a b].filter
            (fun e => e.srcPort == a && e.dstPort == b) = [g.connEdge a b] := by
          simp [Graph.connEdge]
        have hliveG3a : (g.connect a b).1.portLive a := (Graph.portLive_congr hD hF a).2 h1
        have hliveG3b : (g.connect a b).1.portLive b := (Graph.portLive_congr hD hF b).2 h2
        have hpdA := Graph.portDataAt_congr hD a
        have hpdB := Graph.portDataAt_congr hD b
        have hany3 : ((g.connect a b).1.incoming b).any (fun e => e.srcPort == a) = true := by
          unfold Graph.incoming
          rw [hpdB, hAtD]
          refine List.any_eq_true.2 ⟨g.connEdge a b, List.mem_filter.2 ⟨?_, ?_⟩, ?_⟩
          · exact List.mem_append_right _ (List.mem_singleton.2 rfl)
          · exact beq_self_eq_true b
          · exact beq_self_eq_true a
        refine ⟨?_, ?_, ?_⟩
        · have := Graph.connect_already (g.connect a b).1 a b hliveG3a hliveG3b
            (by rw [hpdA, hpdB]; exact h3) hany3
          exact this
        · unfold Graph.ppCnt
          rw [hAtS, List.filter_append, hfilterEdge, List.length_append]
          unfold Graph.ppCnt at hcntS0
          rw [hcntS0]
          rfl
        · unfold Graph.ppCnt
          rw [hAtD, List.filter_append, hfilterEdge, List.length_append]
          unfold Graph.ppCnt at hcntD0
          rw [hcntD0]
          rfl

/-- Witness for C5 at the two-node pair graph. -/
theorem claim5_witness :
    pairGraph.WF ∧ (pairGraph.connect 0 1).2 = .ok () ∧
      ((pairGraph.connect 0 1).1.connect 0 1 = ((pairGraph.connect 0 1).1, .ok ()) ∧
        Graph.ppCnt (pairGraph.connect 0 1).1 (pairGraph.portDataAt 0).1 0 1 = 1 ∧
        Graph.ppCnt (pairGraph.connect 0 1).1 (pairGraph.portDataAt 1).1 0 1 = 1) :=
  ⟨by decide, by decide, claim5_connect_idempotent pairGraph (by decide) 0 1 (by decide)⟩

/-!  Claim C1: correctness of the Kahn walk.  The development follows the loop
of `walk_mut`: a loop invariant over (queue, indegree map, visit order), its
preservation through the dependent-decrementing fold, completeness of the walk
on acyclic graphs, and finally the ordering statement for `compile`. -/

/-- The number of dependency edges of `n` whose source has not been visited. -/
def Graph.remaining (g : Graph N P) (P : List Nat) (n : Nat) : Nat :=
  ((g.edgesAt n).filter (fun e => e.dstNode == n && decide (e.srcNode ∉ P))).length

/-- Multiplicity of `m` in the dependents iterator of `n` is the number of
stored edges from `n` to `m` in `n`'s list. -/
theorem Graph.dependents_count (g : Graph N P) (n m : Nat) :
    (g.dependents n).count m = g.ndCnt n n m := by
  unfold Graph.dependents Graph.ndCnt
  induction g.edgesAt n with
  | nil => rfl
  | cons e l ih =>
      by_cases hs : e.srcNode = n
      · by_cases hd : e.dstNode = m
        · simp [hs, hd, List.count_cons, ih]
        · simp [hs, hd, List.count_cons, ih]
      · simp [hs, ih]

/-- Length of the dependencies iterator of `n`. -/
theorem Graph.dependencies_length (g : Graph N P) (n : Nat) :
    (g.dependencies n).length = ((g.edgesAt n).filter (fun e => e.dstNode == n)).length := by
  unfold Graph.dependencies
  induction g.edgesAt n with
  | nil => rfl
  | cons e l ih =>
      by_cases hd : e.dstNode = n
      · simp [hd, ih]
      · simp [hd, ih]

/-- With nothing visited, `remaining` is the full dependency count. -/
theorem Graph.remaining_nil (g : Graph N P) (n : Nat) :
    g.remaining [] n = (g.dependencies n).length := by
  rw [Graph.dependencies_length]
  unfold Graph.remaining
  congr 1
  apply List.filter_congr
  intro e _
  simp

/-- Splitting `remaining` when one more node is marked visited. -/
theorem Graph.remaining_append (g : Graph N P) (P : List Nat) (n m : Nat) (hn : n ∉ P) :
    g.remaining (P ++ [n]) m + g.ndCnt m n m = g.remaining P m := by
  unfold Graph.remaining Graph.ndCnt
  induction g.edgesAt m with
  | nil => rfl
  | cons e l ih =>
      by_cases hd : e.dstNode = m
      · by_cases hs : e.srcNode = n
        · have hsp : e.srcNode ∉ P := by rw [hs]; exact hn
          have c1 : ¬ ((e.dstNode == m && decide (e.srcNode ∉ P ++ [n])) = true) := by
            simp [hd, hs]
          have c2 : (e.srcNode == n && e.dstNode == m) = true := by simp [hd, hs]
          have c3 : (e.dstNode == m && decide (e.srcNode ∉ P)) = true := by simp [hd, hsp]
          simp only [List.filter_cons, if_neg c1, if_pos c2, if_pos c3, List.length_cons]
          omega
        · by_cases hp : e.srcNode ∈ P
          · have c1 : ¬ ((e.dstNode == m && decide (e.srcNode ∉ P ++ [n])) = true) := by
              simp [hd, hp]
            have c2 : ¬ ((e.srcNode == n && e.dstNode == m) = true) := by simp [hs]
            have c3 : ¬ ((e.dstNode == m && decide (e.srcNode ∉ P)) = true) := by
              simp [hd, hp]
            simp only [List.filter_cons, if_neg c1, if_neg c2, if_neg c3]
            exact ih
          · have c1 : (e.dstNode == m && decide (e.srcNode ∉ P ++ [n])) = true := by
              simp [hd, hp, hs]
            have c2 : ¬ ((e.srcNode == n && e.dstNode == m) = true) := by simp [hs]
            have c3 : (e.dstNode == m && decide (e.srcNode ∉ P)) = true := by
              simp [hd, hp]
            simp only [List.filter_cons, if_pos c1, if_neg c2, if_pos c3, List.length_cons]
            omega
      · have c1 : ¬ ((e.dstNode == m && decide (e.srcNode ∉ P ++ [n])) = true) := by
          simp [hd]
        have c2 : ¬ ((e.srcNode == n && e.dstNode == m) = true) := by simp [hd]
        have c3 : ¬ ((e.dstNode == m && decide (e.srcNode ∉ P)) = true) := by simp [hd]
        simp only [List.filter_cons, if_neg c1, if_neg c2, if_neg c3]
        exact ih

/-- A positive stored-edge count yields a witnessing edge. -/
theorem Graph.ndCnt_pos (g : Graph N P) {i m n : Nat} (h : 0 < g.ndCnt i m n) :
    ∃ e ∈ g.edgesAt i, e.srcNode = m ∧ e.dstNode = n := by
  unfold Graph.ndCnt at h
  have hne : (g.edgesAt i).filter (fun e => e.srcNode == m && e.dstNode == n) ≠ [] := by
    intro hc
    rw [hc] at h
    exact Nat.lt_irrefl 0 h
  rcases List.exists_mem_of_ne_nil _ hne with ⟨e, hmem⟩
  obtain ⟨he, hpp⟩ := List.mem_filter.1 hmem
  rw [Bool.and_eq_true, beq_iff_eq, beq_iff_eq] at hpp
  exact ⟨e, he, hpp.1, hpp.2⟩

theorem Graph.ndCnt_pos_of_mem (g : Graph N P) {i m n : Nat} {e : Edge}
    (he : e ∈ g.edgesAt i) (hs : e.srcNode = m) (hd : e.dstNode = n) : 0 < g.ndCnt i m n := by
  unfold Graph.ndCnt
  refine List.length_pos.2 (fun hc => ?_)
  have hmm : e ∈ (g.edgesAt i).filter (fun e => e.srcNode == m && e.dstNode == n) :=
    List.mem_filter.2 ⟨he, by rw [Bool.and_eq_true, beq_iff_eq, beq_iff_eq]; exact ⟨hs, hd⟩⟩
  rw [hc] at hmm
  exact List.not_mem_nil e hmm

/-- Bidirectional incidence transfers the per-pair edge count between the two
endpoint lists, for live endpoints. -/
theorem Graph.ndCnt_bidir (g : Graph N P) (hB : g.BidirNodesWF)
    {m n : Nat} (hm : g.nodeLive m) (hn : g.nodeLive n) :
    g.ndCnt m m n = g.ndCnt n m n := by
  rcases Nat.eq_zero_or_pos (g.ndCnt m m n) with h0 | hpos
  · rcases Nat.eq_zero_or_pos (g.ndCnt n m n) with h0' | hpos'
    · rw [h0, h0']
    · obtain ⟨e, he, hs, hd⟩ := g.ndCnt_pos hpos'
      have := hB n hn.1 e he
      rw [hs, hd] at this
      exact this
  · obtain ⟨e, he, hs, hd⟩ := g.ndCnt_pos hpos
    have := hB m hm.1 e he
    rw [hs, hd] at this
    exact this

/-- The loop invariant of `walk_mut`. -/
structure KInv (g : Graph N P) (queue : List Nat) (indeg : Nat → Nat)
    (processed : List Nat) : Prop where
  procNodup : processed.Nodup
  queueNodup : queue.Nodup
  disj : ∀ n ∈ queue, n ∉ processed
  procLive : ∀ n ∈ processed, g.nodeLive n
  queueLive : ∀ n ∈ queue, g.nodeLive n
  indegEq : ∀ n, g.nodeLive n → indeg n = g.remaining processed n
  zeroIff : ∀ n, g.nodeLive n → n ∉ processed →
      (g.remaining processed n = 0 ↔ n ∈ queue)
  topo : ∀ i, (hi : i < processed.length) →
      ∀ e ∈ g.edgesAt (processed.get ⟨i, hi⟩),
        e.dstNode = processed.get ⟨i, hi⟩ → e.srcNode ∈ processed.take i

/-- Consequence of the order invariant: dependency sources of visited nodes are
visited. -/
theorem KInv.topo_mem {g : Graph N P} {queue : List Nat} {indeg : Nat → Nat}
    {processed : List Nat} (h : KInv g queue indeg processed) {n : Nat}
    (hn : n ∈ processed) {e : Edge} (he : e ∈ g.edgesAt n) (hd : e.dstNode = n) :
    e.srcNode ∈ processed := by
  obtain ⟨i, hget⟩ := List.mem_iff_get.1 hn
  have h2 : processed.get ⟨i.1, i.2⟩ = n := hget
  have := h.topo i.1 i.2 e (by rw [h2]; exact he) (by rw [h2]; exact hd)
  exact List.mem_of_mem_take this

/-- A node with no unvisited dependencies has all dependency sources visited. -/
theorem Graph.remaining_zero_mem (g : Graph N P) {P : List Nat} {n : Nat}
    (h : g.remaining P n = 0) {e : Edge} (he : e ∈ g.edgesAt n) (hd : e.dstNode = n) :
    e.srcNode ∈ P := by
  unfold Graph.remaining at h
  rw [List.length_eq_zero] at h
  by_contra hnp
  have : e ∈ (g.edgesAt n).filter (fun e => e.dstNode == n && decide (e.srcNode ∉ P)) :=
    List.mem_filter.2 ⟨he, by
      rw [Bool.and_eq_true, beq_iff_eq, decide_eq_true_iff]
      exact ⟨hd, hnp⟩⟩
  rw [h] at this
  exact List.not_mem_nil e this

/-- The per-dependent decrement of `walk_mut`'s inner loop: decrement the
dependent's indegree and enqueue it when the count drains to zero.  The source
decrements a `usize` that is strictly positive under the invariants (proved in
`Graph.kahnFold_spec`); `Nat` subtraction stands in for it. -/
def kahnDec (qi : List Nat × (Nat → Nat)) (dep : Nat) : List Nat × (Nat → Nat) :=
  let v := qi.2 dep - 1
  (if v = 0 then qi.1 ++ [dep] else qi.1, Function.update qi.2 dep v)

theorem Graph.kahnLoop_zero (g : Graph N P) (queue : List Nat) (indeg : Nat → Nat)
    (processed : List Nat) : g.kahnLoop 0 queue indeg processed = (processed, queue) := rfl

theorem Graph.kahnLoop_succ_nil (g : Graph N P) (fuel : Nat) (indeg : Nat → Nat)
    (processed : List Nat) : g.kahnLoop (fuel + 1) [] indeg processed = (processed, []) := rfl

theorem Graph.kahnLoop_succ_cons (g : Graph N P) (fuel n : Nat) (qtail : List Nat)
    (indeg : Nat → Nat) (processed : List Nat) :
    g.kahnLoop (fuel + 1) (n :: qtail) indeg processed =
      g.kahnLoop fuel ((g.dependents n).foldl kahnDec (qtail, indeg)).1
        ((g.dependents n).foldl kahnDec (qtail, indeg)).2 (processed ++ [n]) := rfl

theorem Graph.mem_liveNodesList (g : Graph N P) (m : Nat) :
    m ∈ g.liveNodesList ↔ g.nodeLive m := by
  unfold Graph.liveNodesList Graph.nodeLive
  simp [List.mem_filter, List.mem_range]

theorem Graph.liveNodesList_nodup (g : Graph N P) : g.liveNodesList.Nodup :=
  List.Nodup.filter _ (List.nodup_range _)

theorem Graph.liveNodesList_length_le (g : Graph N P) :
    g.liveNodesList.length ≤ g.nodeCount := by
  have h := List.length_filter_le (fun n => decide (n ∉ g.freeNodes)) (List.range g.nodeCount)
  simpa [Graph.liveNodesList] using h

/-- Edges from an unvisited node count toward `remaining`. -/
theorem Graph.ndCnt_le_remaining (g : Graph N P) {P : List Nat} {n d : Nat} (hn : n ∉ P) :
    g.ndCnt d n d ≤ g.remaining P d := by
  unfold Graph.ndCnt Graph.remaining
  rw [← List.countP_eq_length_filter, ← List.countP_eq_length_filter]
  refine List.countP_mono_left ?_
  intro e _ hp
  rw [Bool.and_eq_true, beq_iff_eq, beq_iff_eq] at hp
  rw [Bool.and_eq_true, beq_iff_eq, decide_eq_true_iff]
  exact ⟨hp.2, hp.1 ▸ hn⟩

/-- Every dependent of a live node is live. -/
theorem Graph.dependents_live (g : Graph N P) (hE : g.EdgesWF) {n m : Nat}
    (hn : g.nodeLive n) (hm : m ∈ g.dependents n) : g.nodeLive m := by
  have hc : 0 < g.ndCnt n n m := by
    have h := List.count_pos_iff.2 hm
    rw [Graph.dependents_count] at h
    exact h
  obtain ⟨e, he, hs, hd⟩ := g.ndCnt_pos hc
  have h2 := hE n hn.1 e he
  rw [← hd]
  exact h2.2.2.1

/-- A dependent's own adjacency list also stores an edge of the pair, under
bidirectional incidence. -/
theorem Graph.dependents_step (g : Graph N P) (hB : g.BidirNodesWF) {n m : Nat}
    (hn : g.nodeLive n) (hm : g.nodeLive m) (h : m ∈ g.dependents n) :
    ∃ e ∈ g.edgesAt m, e.srcNode = n ∧ e.dstNode = m := by
  have hc : 0 < g.ndCnt n n m := by
    have h2 := List.count_pos_iff.2 h
    rw [Graph.dependents_count] at h2
    exact h2
  rw [g.ndCnt_bidir hB hn hm] at hc
  exact g.ndCnt_pos hc

/-- Positive `remaining` yields a dependency edge from an unvisited source. -/
theorem Graph.remaining_pos (g : Graph N P) {P : List Nat} {x : Nat}
    (h : g.remaining P x ≠ 0) :
    ∃ e ∈ g.edgesAt x, e.dstNode = x ∧ e.srcNode ∉ P := by
  unfold Graph.remaining at h
  have hne : (g.edgesAt x).filter (fun e => e.dstNode == x && decide (e.srcNode ∉ P)) ≠ [] := by
    intro hc
    rw [hc] at h
    exact h rfl
  rcases List.exists_mem_of_ne_nil _ hne with ⟨e, hmem⟩
  obtain ⟨he, hpp⟩ := List.mem_filter.1 hmem
  rw [Bool.and_eq_true, beq_iff_eq, decide_eq_true_iff] at hpp
  exact ⟨e, he, hpp.1, hpp.2⟩

/-- Correctness of the inner decrement fold of `walk_mut`, stated for any split
`ds ++ rest` of the popped node's dependents list: after folding the remaining
part, the indegrees account for the whole dependents list, the queue stays
duplicate-free, holds only live unvisited nodes other than the popped one, and
holds exactly the nodes whose count has drained to zero. -/
theorem Graph.kahnFold_spec (g : Graph N P) (hE : g.EdgesWF) (hB : g.BidirNodesWF)
    {n : Nat} {qtail : List Nat} {indeg0 : Nat → Nat} {P0 : List Nat}
    (hK : KInv g (n :: qtail) indeg0 P0) :
    ∀ rest ds q ind, g.dependents n = ds ++ rest →
      (∀ m, g.nodeLive m → ind m + ds.count m = g.remaining P0 m) →
      q.Nodup →
      (∀ m ∈ q, g.nodeLive m ∧ m ∉ P0 ∧ m ≠ n) →
      (∀ m, g.nodeLive m → m ∉ P0 → m ≠ n →
        (m ∈ q ↔ (ind m = 0 ∧ (m ∈ qtail ∨ m ∈ ds)))) →
      ((∀ m, g.nodeLive m →
          (rest.foldl kahnDec (q, ind)).2 m + (g.dependents n).count m = g.remaining P0 m) ∧
       (rest.foldl kahnDec (q, ind)).1.Nodup ∧
       (∀ m ∈ (rest.foldl kahnDec (q, ind)).1, g.nodeLive m ∧ m ∉ P0 ∧ m ≠ n) ∧
       (∀ m, g.nodeLive m → m ∉ P0 → m ≠ n →
         (m ∈ (rest.foldl kahnDec (q, ind)).1 ↔
           ((rest.foldl kahnDec (q, ind)).2 m = 0 ∧
             (m ∈ qtail ∨ m ∈ g.dependents n))))) := by
  have hnlive : g.nodeLive n := hK.queueLive n (List.mem_cons_self n qtail)
  have hnP : n ∉ P0 := hK.disj n (List.mem_cons_self n qtail)
  intro rest
  induction rest with
  | nil =>
      intro ds q ind hsplit hindeq hnodup hq hziff
      rw [List.append_nil] at hsplit
      subst hsplit
      simp only [List.foldl_nil]
      exact ⟨hindeq, hnodup, hq, hziff⟩
  | cons d rest ih =>
      intro ds q ind hsplit hindeq hnodup hq hziff
      have hdmem : d ∈ g.dependents n := by
        rw [hsplit]
        exact List.mem_append.2 (Or.inr (List.mem_cons_self d rest))
      have hdlive : g.nodeLive d := g.dependents_live hE hnlive hdmem
      have hstep : ∃ e ∈ g.edgesAt d, e.srcNode = n ∧ e.dstNode = d :=
        g.dependents_step hB hnlive hdlive hdmem
      have hdne : d ≠ n := by
        intro hdn
        subst hdn
        have hrem0 : g.remaining P0 d = 0 :=
          (hK.zeroIff d hdlive hnP).2 (List.mem_cons_self d qtail)
        obtain ⟨e, he, hs, hd2⟩ := hstep
        have hmem := g.remaining_zero_mem hrem0 he hd2
        rw [hs] at hmem
        exact hnP hmem
      have hdP : d ∉ P0 := by
        intro hdP0
        obtain ⟨e, he, hs, hd2⟩ := hstep
        have hmem := hK.topo_mem hdP0 he hd2
        rw [hs] at hmem
        exact hnP hmem
      have hcnt : ds.count d + 1 ≤ (g.dependents n).count d := by
        rw [hsplit, List.count_append, List.count_cons_self]
        omega
      have hindd : ind d + ds.count d = g.remaining P0 d := hindeq d hdlive
      have hle : (g.dependents n).count d ≤ g.remaining P0 d := by
        rw [Graph.dependents_count, g.ndCnt_bidir hB hnlive hdlive]
        exact g.ndCnt_le_remaining hnP
      have hpos : 1 ≤ ind d := by omega
      have hdq : d ∉ q := by
        intro hdq0
        have h0 := ((hziff d hdlive hdP hdne).1 hdq0).1
        omega
      rw [List.foldl_cons]
      have hkd : kahnDec (q, ind) d =
          (if ind d - 1 = 0 then q ++ [d] else q, Function.update ind d (ind d - 1)) := rfl
      rw [hkd]
      refine ih (ds ++ [d]) _ _ ?_ ?_ ?_ ?_ ?_
      · rw [List.append_assoc]
        exact hsplit
      · intro m hm
        rw [List.count_append]
        by_cases hmd : m = d
        · subst hmd
          rw [Function.update_same, List.count_singleton_self]
          omega
        · rw [Function.update_noteq hmd]
          have hz : List.count m [d] = 0 := by
            simp [List.count_singleton, hmd]
          rw [hz]
          have := hindeq m hm
          omega
      · by_cases hv : ind d - 1 = 0
        · rw [if_pos hv, List.nodup_append]
          refine ⟨hnodup, List.nodup_singleton d, ?_⟩
          intro a ha hb
          rw [List.mem_singleton] at hb
          subst hb
          exact hdq ha
        · rw [if_neg hv]
          exact hnodup
      · intro m hm
        by_cases hv : ind d - 1 = 0
        · rw [if_pos hv] at hm
          rcases List.mem_append.1 hm with h | h
          · exact hq m h
          · rw [List.mem_singleton] at h
            subst h
            exact ⟨hdlive, hdP, hdne⟩
        · rw [if_neg hv] at hm
          exact hq m hm
      · intro m hm hmP hmn
        by_cases hmd : m = d
        · subst hmd
          rw [Function.update_same]
          by_cases hv : ind m - 1 = 0
          · rw [if_pos hv]
            constructor
            · intro _
              exact ⟨hv, Or.inr (List.mem_append.2 (Or.inr (List.mem_singleton.2 rfl)))⟩
            · intro _
              exact List.mem_append.2 (Or.inr (List.mem_singleton.2 rfl))
          · rw [if_neg hv]
            constructor
            · intro hmem
              have h0 := ((hziff m hm hmP hmn).1 hmem).1
              exact absurd h0 (by omega)
            · intro hc
              exact absurd hc.1 hv
        · rw [Function.update_noteq hmd]
          have hmds : (m ∈ ds ++ [d]) ↔ m ∈ ds := by
            simp [List.mem_append, List.mem_singleton, hmd]
          rw [hmds]
          by_cases hv : ind d - 1 = 0
          · rw [if_pos hv, List.mem_append, List.mem_singleton]
            constructor
            · intro h
              rcases h with h | h
              · exact (hziff m hm hmP hmn).1 h
              · exact absurd h hmd
            · intro h
              exact Or.inl ((hziff m hm hmP hmn).2 h)
          · rw [if_neg hv]
            exact hziff m hm hmP hmn

/-- One step of the outer loop of `walk_mut`: popping the head of the queue and
folding the decrement over its dependents preserves the invariant. -/
theorem Graph.kahnStep_KInv (g : Graph N P) (hE : g.EdgesWF) (hB : g.BidirNodesWF)
    {n : Nat} {qtail : List Nat} {indeg0 : Nat → Nat} {P0 : List Nat}
    (hK : KInv g (n :: qtail) indeg0 P0) :
    KInv g ((g.dependents n).foldl kahnDec (qtail, indeg0)).1
      ((g.dependents n).foldl kahnDec (qtail, indeg0)).2 (P0 ++ [n]) := by
  have hnlive : g.nodeLive n := hK.queueLive n (List.mem_cons_self n qtail)
  have hnP : n ∉ P0 := hK.disj n (List.mem_cons_self n qtail)
  have hrem0 : g.remaining P0 n = 0 :=
    (hK.zeroIff n hnlive hnP).2 (List.mem_cons_self n qtail)
  have hnq : n ∉ qtail := (List.nodup_cons.1 hK.queueNodup).1
  obtain ⟨c1, c2, c3, c4⟩ := g.kahnFold_spec hE hB hK (g.dependents n) [] qtail indeg0
    rfl
    (by
      intro m hm
      rw [List.count_nil, Nat.add_zero]
      exact hK.indegEq m hm)
    (List.Nodup.of_cons hK.queueNodup)
    (by
      intro m hm
      refine ⟨hK.queueLive m (List.mem_cons_of_mem n hm),
        hK.disj m (List.mem_cons_of_mem n hm), ?_⟩
      intro hmn
      subst hmn
      exact hnq hm)
    (by
      intro m hm hmP hmn
      simp only [List.not_mem_nil, or_false]
      constructor
      · intro h
        refine ⟨?_, h⟩
        rw [hK.indegEq m hm]
        exact (hK.zeroIff m hm hmP).2 (List.mem_cons_of_mem n h)
      · intro h
        exact h.2)
  refine ⟨?_, c2, ?_, ?_, ?_, ?_, ?_, ?_⟩
  · rw [List.nodup_append]
    refine ⟨hK.procNodup, List.nodup_singleton n, ?_⟩
    intro a ha hb
    rw [List.mem_singleton] at hb
    subst hb
    exact hnP ha
  · intro m hm hmem
    obtain ⟨hl, hp, hn2⟩ := c3 m hm
    rcases List.mem_append.1 hmem with h | h
    · exact hp h
    · exact hn2 (List.mem_singleton.1 h)
  · intro m hm
    rcases List.mem_append.1 hm with h | h
    · exact hK.procLive m h
    · have hmn := List.mem_singleton.1 h
      rw [hmn]
      exact hnlive
  · intro m hm
    exact (c3 m hm).1
  · intro m hm
    have h1 := c1 m hm
    have h2 := g.remaining_append P0 n m hnP
    have h3 : (g.dependents n).count m = g.ndCnt m n m := by
      rw [Graph.dependents_count, g.ndCnt_bidir hB hnlive hm]
    omega
  · intro m hm hmem
    have hmP : m ∉ P0 := fun h => hmem (List.mem_append.2 (Or.inl h))
    have hmn : m ≠ n := fun h => hmem (List.mem_append.2 (Or.inr (List.mem_singleton.2 h)))
    have h4 := c4 m hm hmP hmn
    have h1 := c1 m hm
    have h2 := g.remaining_append P0 n m hnP
    have h3 : (g.dependents n).count m = g.ndCnt m n m := by
      rw [Graph.dependents_count, g.ndCnt_bidir hB hnlive hm]
    constructor
    · intro h0
      refine h4.2 ⟨by omega, ?_⟩
      by_cases hc : g.ndCnt m n m = 0
      · have hr0 : g.remaining P0 m = 0 := by omega
        have hq := (hK.zeroIff m hm hmP).1 hr0
        rcases List.mem_cons.1 hq with h | h
        · exact absurd h hmn
        · exact Or.inl h
      · refine Or.inr ?_
        rw [← List.count_pos_iff]
        omega
    · intro hmem2
      have h0 := (h4.1 hmem2).1
      omega
  · intro i hi e he hd
    have hi2 : i < P0.length + 1 := by
      simpa using hi
    by_cases hlt : i < P0.length
    · have hg : (P0 ++ [n]).get ⟨i, hi⟩ = P0.get ⟨i, hlt⟩ := by
        simp [List.getElem_append_left hlt]
      rw [hg] at he hd
      have hmem := hK.topo i hlt e he hd
      have ht : (P0 ++ [n]).take i = P0.take i :=
        List.take_eq_left_iff.2 (Or.inr (Nat.le_of_lt hlt))
      rw [ht]
      exact hmem
    · have hieq : i = P0.length := by omega
      subst hieq
      have hg : (P0 ++ [n]).get ⟨P0.length, hi⟩ = n := by
        simp
      rw [hg] at he hd
      have ht : (P0 ++ [n]).take P0.length = P0 := List.take_left P0 [n]
      rw [ht]
      exact g.remaining_zero_mem hrem0 he hd

/-- A nonempty finite set in which every element has a predecessor inside the
set contains a directed cycle. -/
theorem exists_cycle_of_pred {R : Nat → Nat → Prop} :
    ∀ S : Finset Nat, S.Nonempty → (∀ m ∈ S, ∃ m', m' ∈ S ∧ R m' m) →
      ∃ c, Relation.TransGen R c c := by
  intro S
  induction S using Finset.strongInductionOn with
  | _ S ih =>
    intro hne hpred
    classical
    obtain ⟨m, hm⟩ := hne
    obtain ⟨m', hm'S, hRm⟩ := hpred m hm
    by_cases hcyc : Relation.TransGen R m m
    · exact ⟨m, hcyc⟩
    · have hTsub : S.filter (fun x => Relation.TransGen R x m) ⊆ S :=
        Finset.filter_subset _ _
      have hmT : m ∉ S.filter (fun x => Relation.TransGen R x m) := by
        intro h
        exact hcyc (Finset.mem_filter.1 h).2
      have hss : S.filter (fun x => Relation.TransGen R x m) ⊂ S :=
        (Finset.ssubset_iff_of_subset hTsub).2 ⟨m, hm, hmT⟩
      have hTne : (S.filter (fun x => Relation.TransGen R x m)).Nonempty :=
        ⟨m', Finset.mem_filter.2 ⟨hm'S, Relation.TransGen.single hRm⟩⟩
      have hTpred : ∀ x ∈ S.filter (fun x => Relation.TransGen R x m),
          ∃ x', x' ∈ S.filter (fun x => Relation.TransGen R x m) ∧ R x' x := by
        intro x hx
        obtain ⟨hxS, hxm⟩ := Finset.mem_filter.1 hx
        obtain ⟨x', hx'S, hRx⟩ := hpred x hxS
        exact ⟨x', Finset.mem_filter.2 ⟨hx'S, Relation.TransGen.head hRx hxm⟩, hRx⟩
      exact ih _ hss hTne hTpred

/-- When the visited list already has as many entries as there are live nodes,
it holds every live node. -/
theorem Graph.KInv_complete_of_card (g : Graph N P) {queue : List Nat}
    {indeg : Nat → Nat} {processed : List Nat} (hK : KInv g queue indeg processed)
    (hlen : g.liveNodesList.length ≤ processed.length) :
    ∀ m, g.nodeLive m → m ∈ processed := by
  intro m hm
  have hsub : processed.toFinset ⊆ g.liveNodesList.toFinset := by
    intro x hx
    rw [List.mem_toFinset] at hx ⊢
    exact (g.mem_liveNodesList x).2 (hK.procLive x hx)
  have hc1 : processed.toFinset.card = processed.length :=
    List.toFinset_card_of_nodup hK.procNodup
  have hc2 : g.liveNodesList.toFinset.card = g.liveNodesList.length :=
    List.toFinset_card_of_nodup g.liveNodesList_nodup
  have heq : processed.toFinset = g.liveNodesList.toFinset :=
    Finset.eq_of_subset_of_card_le hsub (by omega)
  have hmem : m ∈ g.liveNodesList.toFinset :=
    List.mem_toFinset.2 ((g.mem_liveNodesList m).2 hm)
  rw [← heq] at hmem
  exact List.mem_toFinset.1 hmem

/-- When the queue has drained but an unvisited live node remains, the edge set
has a directed cycle: every unvisited live node keeps an unvisited live
dependency, and iterating that choice inside a finite set closes a loop. -/
theorem Graph.KInv_complete_of_nil (g : Graph N P) (hE : g.EdgesWF)
    (hB : g.BidirNodesWF) {indeg : Nat → Nat} {processed : List Nat}
    (hK : KInv g [] indeg processed) (hacyc : g.Acyclic) :
    ∀ m, g.nodeLive m → m ∈ processed := by
  classical
  intro m hm
  by_contra hmp
  have hpred : ∀ x ∈ (g.liveNodesList.filter (fun x => decide (x ∉ processed))).toFinset,
      ∃ x', x' ∈ (g.liveNodesList.filter (fun x => decide (x ∉ processed))).toFinset ∧
        g.step x' x := by
    intro x hx
    rw [List.mem_toFinset, List.mem_filter, decide_eq_true_iff] at hx
    obtain ⟨hxl, hxp⟩ := hx
    have hxlive : g.nodeLive x := (g.mem_liveNodesList x).1 hxl
    have hrpos : g.remaining processed x ≠ 0 := by
      intro h0
      exact absurd ((hK.zeroIff x hxlive hxp).1 h0) (List.not_mem_nil x)
    obtain ⟨e, he, hd, hs⟩ := g.remaining_pos hrpos
    have hEe := hE x hxlive.1 e he
    have hslive : g.nodeLive e.srcNode := hEe.2.1
    have hcnt : 0 < g.ndCnt x e.srcNode e.dstNode := g.ndCnt_pos_of_mem he rfl rfl
    have hb := hB x hxlive.1 e he
    rw [← hd] at hcnt
    rw [← hb] at hcnt
    obtain ⟨e2, he2, hs2, hd2⟩ := g.ndCnt_pos hcnt
    refine ⟨e.srcNode, ?_, ?_⟩
    · rw [List.mem_toFinset, List.mem_filter, decide_eq_true_iff]
      exact ⟨(g.mem_liveNodesList e.srcNode).2 hslive, hs⟩
    · rw [← hd]
      exact ⟨e2, he2, hs2, hd2⟩
  have hne : (g.liveNodesList.filter (fun x => decide (x ∉ processed))).toFinset.Nonempty := by
    refine ⟨m, ?_⟩
    rw [List.mem_toFinset, List.mem_filter, decide_eq_true_iff]
    exact ⟨(g.mem_liveNodesList m).2 hm, hmp⟩
  obtain ⟨c, hc⟩ := exists_cycle_of_pred _ hne hpred
  exact hacyc c hc

/-- Soundness and completeness of `walk_mut`'s queue loop: from any invariant
state with enough fuel, the produced order is duplicate-free, visits only live
nodes, every dependency edge of a visited node points back into the strict
prefix before it, and — when the edge set is acyclic — every live node is
visited. -/
theorem Graph.kahnLoop_spec (g : Graph N P) (hE : g.EdgesWF) (hB : g.BidirNodesWF) :
    ∀ fuel queue indeg processed, KInv g queue indeg processed →
      g.liveNodesList.length ≤ fuel + processed.length →
      ((g.kahnLoop fuel queue indeg processed).1.Nodup ∧
       (∀ m ∈ (g.kahnLoop fuel queue indeg processed).1, g.nodeLive m) ∧
       (∀ i, (hi : i < (g.kahnLoop fuel queue indeg processed).1.length) →
         ∀ e ∈ g.edgesAt ((g.kahnLoop fuel queue indeg processed).1.get ⟨i, hi⟩),
           e.dstNode = (g.kahnLoop fuel queue indeg processed).1.get ⟨i, hi⟩ →
             e.srcNode ∈ (g.kahnLoop fuel queue indeg processed).1.take i) ∧
       (g.Acyclic → ∀ m, g.nodeLive m →
         m ∈ (g.kahnLoop fuel queue indeg processed).1)) := by
  intro fuel
  induction fuel with
  | zero =>
      intro queue indeg processed hK hfb
      rw [Graph.kahnLoop_zero]
      refine ⟨hK.procNodup, hK.procLive, hK.topo, ?_⟩
      intro _ m hm
      exact g.KInv_complete_of_card hK (by simpa using hfb) m hm
  | succ fuel ih =>
      intro queue indeg processed hK hfb
      cases queue with
      | nil =>
          rw [Graph.kahnLoop_succ_nil]
          refine ⟨hK.procNodup, hK.procLive, hK.topo, ?_⟩
          intro hacyc m hm
          exact g.KInv_complete_of_nil hE hB hK hacyc m hm
      | cons n qtail =>
          rw [Graph.kahnLoop_succ_cons]
          refine ih _ _ _ (g.kahnStep_KInv hE hB hK) ?_
          rw [List.length_append, List.length_singleton]
          omega

/-- The initial state of the walk satisfies the invariant. -/
theorem Graph.initKInv (g : Graph N P) : KInv g g.initQueue g.initIndeg [] := by
  refine ⟨List.nodup_nil, ?_, ?_, ?_, ?_, ?_, ?_, ?_⟩
  · exact List.Nodup.filter _ g.liveNodesList_nodup
  · intro m _
    exact List.not_mem_nil m
  · intro m hm
    exact absurd hm (List.not_mem_nil m)
  · intro m hm
    have hml := List.mem_filter.1 hm
    exact (g.mem_liveNodesList m).1 hml.1
  · intro m _
    exact (g.remaining_nil m).symm
  · intro m hm _
    rw [g.remaining_nil m]
    unfold Graph.initQueue
    rw [List.mem_filter]
    constructor
    · intro h
      exact ⟨(g.mem_liveNodesList m).2 hm, by simpa using h⟩
    · intro h
      have := h.2
      simpa using this
  · intro i hi
    exact absurd hi (Nat.not_lt_zero i)

/-- The visit order of `walk_mut` with the fuel `compile` supplies: sound, and
complete on acyclic graphs. -/
theorem Graph.visitOrder_spec (g : Graph N P) (hE : g.EdgesWF) (hB : g.BidirNodesWF) :
    g.visitOrder.Nodup ∧ (∀ m ∈ g.visitOrder, g.nodeLive m) ∧
    (∀ i, (hi : i < g.visitOrder.length) →
      ∀ e ∈ g.edgesAt (g.visitOrder.get ⟨i, hi⟩),
        e.dstNode = g.visitOrder.get ⟨i, hi⟩ → e.srcNode ∈ g.visitOrder.take i) ∧
    (g.Acyclic → ∀ m, g.nodeLive m → m ∈ g.visitOrder) := by
  have h := g.kahnLoop_spec hE hB (g.nodeCount + 1) g.initQueue g.initIndeg [] g.initKInv
    (by
      have hl := g.liveNodesList_length_le
      simp only [List.length_nil]
      omega)
  exact h

/-- An element of a strict prefix sits at a strictly smaller first index. -/
theorem indexOf_lt_of_mem_take {l : List Nat} {a : Nat} :
    ∀ {j : Nat}, a ∈ l.take j → l.indexOf a < j := by
  induction l with
  | nil =>
      intro j h
      rw [List.take_nil] at h
      exact absurd h (List.not_mem_nil a)
  | cons b l ih =>
      intro j h
      match j with
      | 0 =>
          rw [List.take_zero] at h
          exact absurd h (List.not_mem_nil a)
      | j + 1 =>
          rw [List.take_succ_cons] at h
          by_cases hab : b = a
          · subst hab
            rw [List.indexOf_cons_self]
            exact Nat.succ_pos j
          · rcases List.mem_cons.1 h with h2 | h2
            · exact absurd h2.symm hab
            · rw [List.indexOf_cons_ne _ hab]
              exact Nat.succ_lt_succ (ih h2)

/-- C1: on an invariant-satisfying acyclic graph, the schedule `compile`
returns respects edge order.  For every stored edge: both endpoint nodes
appear in the scheduled node order, the source strictly before the
destination, and the returned `Scheduled` list carries exactly one entry per
position of that order, whose `node` field is the identifier of the node
scheduled there — so the source's entry precedes the destination's entry. -/
theorem claim1_topological_order [Inhabited N] [Inhabited P] (g : Graph N P)
    (hwf : g.WF) (hacyc : g.Acyclic) {i : Nat} (hi : i < g.nodeCount)
    {e : Edge} (he : e ∈ g.edgesAt i) :
    e.srcNode ∈ (g.compile).1.heapStore.scheduledNodes ∧
    e.dstNode ∈ (g.compile).1.heapStore.scheduledNodes ∧
    (g.compile).1.heapStore.scheduledNodes.indexOf e.srcNode <
      (g.compile).1.heapStore.scheduledNodes.indexOf e.dstNode ∧
    (g.compile).2.map Scheduled.node =
      (g.compile).1.heapStore.scheduledNodes.map (fun m => g.nodeIdents.getD m default) := by
  obtain ⟨hE, hB, _⟩ := hwf
  obtain ⟨hnd, hlive, htopo, hcomp⟩ := g.visitOrder_spec hE hB
  have hsched : (g.compile).1.heapStore.scheduledNodes = g.visitOrder := rfl
  have hEe := hE i hi e he
  have hsl : g.nodeLive e.srcNode := hEe.2.1
  have hdl : g.nodeLive e.dstNode := hEe.2.2.1
  have hsmem : e.srcNode ∈ g.visitOrder := hcomp hacyc _ hsl
  have hdmem : e.dstNode ∈ g.visitOrder := hcomp hacyc _ hdl
  have hdedge : ∃ e2 ∈ g.edgesAt e.dstNode,
      e2.srcNode = e.srcNode ∧ e2.dstNode = e.dstNode := by
    rcases hEe.1 with hsrc | hdst
    · have hpos : 0 < g.ndCnt i e.srcNode e.dstNode := g.ndCnt_pos_of_mem he rfl rfl
      rw [← hsrc] at hpos
      rw [hB i hi e he] at hpos
      exact g.ndCnt_pos hpos
    · refine ⟨e, ?_, rfl, rfl⟩
      rw [hdst]
      exact he
  obtain ⟨e2, he2, hs2, hd2⟩ := hdedge
  have hdlt : g.visitOrder.indexOf e.dstNode < g.visitOrder.length :=
    List.indexOf_lt_length.2 hdmem
  have hget : g.visitOrder.get ⟨g.visitOrder.indexOf e.dstNode, hdlt⟩ = e.dstNode :=
    List.indexOf_get hdlt
  have hmemtake := htopo (g.visitOrder.indexOf e.dstNode) hdlt e2
    (by rw [hget]; exact he2) (by rw [hget]; exact hd2)
  rw [hs2] at hmemtake
  have hlt := indexOf_lt_of_mem_take hmemtake
  have hmap : ∀ (order : List Nat) (ia : InAsg) (oa : OutAsg)
      (dc : Nat × Nat → Option Nat),
      (g.buildScheduled order ia oa dc).map Scheduled.node =
        order.map (fun m => g.nodeIdents.getD m default) := by
    intro order ia oa dc
    unfold Graph.buildScheduled
    rw [List.map_map]
    rfl
  rw [hsched]
  exact ⟨hsmem, hdmem, hlt, hmap _ _ _ _⟩

/-- Witness for C1 at the S4 chain: the edge `A -> B` (stored in node `A`'s
list) is scheduled in order. -/
theorem claim1_witness :
    chainGraph.WF ∧ chainGraph.Acyclic ∧ 0 < chainGraph.nodeCount ∧
    ({ srcNode := 0, srcPort := 0, dstNode := 1, dstPort := 3, ptype := 0 } : Edge)
      ∈ chainGraph.edgesAt 0 ∧
    (0 ∈ (chainGraph.compile).1.heapStore.scheduledNodes ∧
     1 ∈ (chainGraph.compile).1.heapStore.scheduledNodes ∧
     (chainGraph.compile).1.heapStore.scheduledNodes.indexOf 0 <
       (chainGraph.compile).1.heapStore.scheduledNodes.indexOf 1 ∧
     (chainGraph.compile).2.map Scheduled.node =
       (chainGraph.compile).1.heapStore.scheduledNodes.map
         (fun m => chainGraph.nodeIdents.getD m default)) := by
  have hacyc : chainGraph.Acyclic :=
    Graph.acyclic_of_edge_rank chainGraph id (by decide)
  exact ⟨by decide, hacyc, by decide, by decide,
    @claim1_topological_order String String _ _ chainGraph (by decide) hacyc 0 (by decide)
      { srcNode := 0, srcPort := 0, dstNode := 1, dstPort := 3, ptype := 0 } (by decide)⟩

/-!  Claim C2: latency alignment.  Named views of the latency solver's
components, definitionally equal to the corresponding pieces of
`solveLatencyStep`. -/

/-- The dependency edges of `n` as the latency solver collects them. -/
def Graph.depEdges (g : Graph N P) (n : Nat) : List Edge :=
  (g.edgesAt n).filter (fun e => e.dstNode == n)

/-- The latency contributed along an edge from `src`: the source's arrival
latency (`0` when unset) plus its intrinsic delay. -/
def Graph.edgeLat (g : Graph N P) (lat : List (Option Nat)) (src : Nat) : Nat :=
  (lat.getD src none).getD 0 + g.delays.getD src 0

/-- The arrival latency the solver computes for `n`: the maximum of its
dependency-edge latencies, `0` when there are none. -/
def Graph.nodeMaxLat (g : Graph N P) (lat : List (Option Nat)) (n : Nat) : Nat :=
  ((g.depEdges n).map (fun e => g.edgeLat lat e.srcNode)).foldl max 0

/-- The inner write loop of the compensation pass: record `some c` for the
port pair of every edge in the list. -/
def dcWrite (edges : List Edge) (c : Nat) (dc : Nat × Nat → Option Nat) :
    Nat × Nat → Option Nat :=
  edges.foldl (fun dc e => Function.update dc (e.srcPort, e.dstPort) (some c)) dc

/-- One step of the compensation pass for the pair `(dep, lat)`: when the
compensation is nonzero, record it for every edge of `n` whose source is
`dep`. -/
def dcStep (g : Graph N P) (n maxL : Nat) (dc : Nat × Nat → Option Nat)
    (dl : Nat × Nat) : Nat × Nat → Option Nat :=
  if maxL - dl.2 ≠ 0 then
    dcWrite ((g.edgesAt n).filter (fun e => e.srcNode == dl.1)) (maxL - dl.2) dc
  else dc

theorem Graph.solveLatencyStep_fst (g : Graph N P) (st : LatState) (n : Nat) :
    (g.solveLatencyStep st n).1 = st.1.set n (some (g.nodeMaxLat st.1 n)) := rfl

theorem Graph.solveLatencyStep_snd (g : Graph N P) (st : LatState) (n : Nat) :
    (g.solveLatencyStep st n).2 =
      ((g.depEdges n).map (fun e => (e.srcNode, g.edgeLat st.1 e.srcNode))).foldl
        (dcStep g n (g.nodeMaxLat st.1 n)) st.2 := by
  show (((g.depEdges n).map (fun e => e.srcNode)).zip
      ((g.depEdges n).map (fun e => g.edgeLat st.1 e.srcNode))).foldl
        (dcStep g n (g.nodeMaxLat st.1 n)) st.2 = _
  rw [List.zip_map']

/-- The seed is bounded by the running maximum. -/
theorem init_le_foldl_max (l : List Nat) : ∀ a : Nat, a ≤ l.foldl max a := by
  induction l with
  | nil =>
      intro a
      exact Nat.le_refl a
  | cons b l ih =>
      intro a
      rw [List.foldl_cons]
      exact Nat.le_trans (Nat.le_max_left a b) (ih (max a b))

/-- Everything in a list is bounded by the running maximum. -/
theorem le_foldl_max (l : List Nat) : ∀ (a : Nat), ∀ x ∈ l, x ≤ l.foldl max a := by
  induction l with
  | nil =>
      intro a x hx
      exact absurd hx (List.not_mem_nil x)
  | cons b l ih =>
      intro a x hx
      rw [List.foldl_cons]
      rcases List.mem_cons.1 hx with h | h
      · subst h
        exact Nat.le_trans (Nat.le_max_right a x) (init_le_foldl_max l (max a x))
      · exact ih (max a b) x h

/-- A key already carrying the written value keeps it through the write loop. -/
theorem dcWrite_stable (edges : List Edge) (c : Nat) {k : Nat × Nat} :
    ∀ dc, dc k = some c → dcWrite edges c dc k = some c := by
  induction edges with
  | nil =>
      intro dc h
      exact h
  | cons f fs ih =>
      intro dc h
      show dcWrite fs c (Function.update dc (f.srcPort, f.dstPort) (some c)) k = some c
      refine ih _ ?_
      by_cases hk : (f.srcPort, f.dstPort) = k
      · rw [← hk, Function.update_same]
      · rw [Function.update_noteq (fun hc => hk hc.symm)]
        exact h

/-- A key not named by any edge of the write loop is untouched. -/
theorem dcWrite_ne (edges : List Edge) (c : Nat) {k : Nat × Nat}
    (h : ∀ f ∈ edges, (f.srcPort, f.dstPort) ≠ k) :
    ∀ dc, dcWrite edges c dc k = dc k := by
  induction edges with
  | nil =>
      intro dc
      rfl
  | cons f fs ih =>
      intro dc
      show dcWrite fs c (Function.update dc (f.srcPort, f.dstPort) (some c)) k = dc k
      rw [ih (fun f hf => h f (List.mem_cons_of_mem _ hf)) _]
      have hk := h f (List.mem_cons_self f fs)
      rw [Function.update_noteq (fun hc => hk hc.symm)]

/-- A key named by some edge of the write loop ends up holding the value. -/
theorem dcWrite_mem (edges : List Edge) (c : Nat) {k : Nat × Nat}
    (h : ∃ f ∈ edges, (f.srcPort, f.dstPort) = k) :
    ∀ dc, dcWrite edges c dc k = some c := by
  induction edges with
  | nil =>
      obtain ⟨f, hf, _⟩ := h
      exact absurd hf (List.not_mem_nil f)
  | cons f fs ih =>
      intro dc
      show dcWrite fs c (Function.update dc (f.srcPort, f.dstPort) (some c)) k = some c
      obtain ⟨f2, hf2, hk2⟩ := h
      rcases List.mem_cons.1 hf2 with h2 | h2
      · subst h2
        refine dcWrite_stable fs c _ ?_
        rw [← hk2, Function.update_same]
      · exact ih ⟨f2, h2, hk2⟩ _

/-- The compensation pass leaves a key alone when every edge that could name
it sits at a pair of zero compensation. -/
theorem dcFold_ne {g : Graph N P} {n maxL : Nat} {k : Nat × Nat} :
    ∀ (pairs : List (Nat × Nat)) (dc0 : Nat × Nat → Option Nat),
      (∀ x ∈ pairs, ∀ f ∈ g.edgesAt n, f.srcNode = x.1 →
        (f.srcPort, f.dstPort) = k → maxL - x.2 = 0) →
      (pairs.foldl (dcStep g n maxL) dc0) k = dc0 k := by
  intro pairs
  induction pairs with
  | nil =>
      intro dc0 _
      rfl
  | cons x xs ih =>
      intro dc0 h
      rw [List.foldl_cons]
      rw [ih _ (fun y hy => h y (List.mem_cons_of_mem _ hy))]
      unfold dcStep
      by_cases hz : maxL - x.2 = 0
      · rw [if_neg (fun hc => hc hz)]
      · rw [if_pos hz]
        refine dcWrite_ne _ _ ?_ _
        intro f hf hk
        obtain ⟨hfe, hfs⟩ := List.mem_filter.1 hf
        rw [beq_iff_eq] at hfs
        exact hz (h x (List.mem_cons_self x xs) f hfe hfs hk)

/-- A key holding the final compensation value keeps it, when every edge that
could name the key comes from the fixed source and every pair of that source
carries the fixed latency. -/
theorem dcFold_stable {g : Graph N P} {n maxL s latS : Nat} {k : Nat × Nat}
    (huniq : ∀ f ∈ g.edgesAt n, (f.srcPort, f.dstPort) = k → f.srcNode = s) :
    ∀ (pairs : List (Nat × Nat)) (dc0 : Nat × Nat → Option Nat),
      (∀ x ∈ pairs, x.1 = s → x.2 = latS) →
      dc0 k = some (maxL - latS) →
      (pairs.foldl (dcStep g n maxL) dc0) k = some (maxL - latS) := by
  intro pairs
  induction pairs with
  | nil =>
      intro dc0 _ h0
      exact h0
  | cons x xs ih =>
      intro dc0 hval h0
      rw [List.foldl_cons]
      refine ih _ (fun y hy => hval y (List.mem_cons_of_mem _ hy)) ?_
      unfold dcStep
      by_cases hz : maxL - x.2 = 0
      · rw [if_neg (fun hc => hc hz)]
        exact h0
      · rw [if_pos hz]
        by_cases hk : ∃ f ∈ (g.edgesAt n).filter (fun e => e.srcNode == x.1),
            (f.srcPort, f.dstPort) = k
        · obtain ⟨f, hf, hfk⟩ := hk
          obtain ⟨hfe, hfs⟩ := List.mem_filter.1 hf
          rw [beq_iff_eq] at hfs
          have hsrc : f.srcNode = s := huniq f hfe hfk
          have hx1 : x.1 = s := by rw [← hfs, hsrc]
          have hx2 : x.2 = latS := hval x (List.mem_cons_self x xs) hx1
          rw [dcWrite_mem _ _ ⟨f, hf, hfk⟩ _, hx2]
        · push_neg at hk
          rw [dcWrite_ne _ _ hk _]
          exact h0

/-- The compensation pass records the value for a key named by a dependency
edge whose compensation is nonzero. -/
theorem dcFold_val {g : Graph N P} {n maxL s latS : Nat} {k : Nat × Nat}
    (huniq : ∀ f ∈ g.edgesAt n, (f.srcPort, f.dstPort) = k → f.srcNode = s)
    (hfwit : ∃ f ∈ g.edgesAt n, f.srcNode = s ∧ (f.srcPort, f.dstPort) = k)
    (hc : maxL - latS ≠ 0) :
    ∀ (pairs : List (Nat × Nat)) (dc0 : Nat × Nat → Option Nat),
      (∀ x ∈ pairs, x.1 = s → x.2 = latS) →
      (s, latS) ∈ pairs →
      (pairs.foldl (dcStep g n maxL) dc0) k = some (maxL - latS) := by
  intro pairs
  induction pairs with
  | nil =>
      intro dc0 _ hwit
      exact absurd hwit (List.not_mem_nil _)
  | cons x xs ih =>
      intro dc0 hval hwit
      rw [List.foldl_cons]
      by_cases hxs : (s, latS) ∈ xs
      · exact ih _ (fun y hy => hval y (List.mem_cons_of_mem _ hy)) hxs
      · have hx : x = (s, latS) := by
          rcases List.mem_cons.1 hwit with h | h
          · exact h.symm
          · exact absurd h hxs
        subst hx
        refine dcFold_stable huniq _ _ (fun y hy => hval y (List.mem_cons_of_mem _ hy)) ?_
        unfold dcStep
        rw [if_pos hc]
        obtain ⟨f, hfe, hfs, hfk⟩ := hfwit
        refine dcWrite_mem _ _ ⟨f, ?_, hfk⟩ _
        rw [List.mem_filter]
        exact ⟨hfe, by rw [beq_iff_eq]; exact hfs⟩

theorem pair_eq_fst {α β : Type} {a c : α} {b d : β} (h : (a, b) = (c, d)) : a = c :=
  congrArg Prod.fst h

theorem pair_eq_snd {α β : Type} {a c : α} {b d : β} (h : (a, b) = (c, d)) : b = d :=
  congrArg Prod.snd h

theorem getD_set_eq {α : Type} (l : List α) (n : Nat) (v d : α) (h : n < l.length) :
    (l.set n v).getD n d = v := by
  rw [List.getD_eq_getElem?_getD, List.getElem?_set_self h]
  rfl

theorem getD_set_ne {α : Type} (l : List α) {n m : Nat} (h : m ≠ n) (v d : α) :
    (l.set n v).getD m d = l.getD m d := by
  rw [List.getD_eq_getElem?_getD, List.getD_eq_getElem?_getD,
    List.getElem?_set_ne (fun hc => h hc.symm)]

theorem getD_replicate_none {α : Type} (k m : Nat) :
    ((List.replicate k (none : Option α)).getD m none) = none := by
  rw [List.getD_eq_getElem?_getD, List.getElem?_replicate]
  by_cases h : m < k
  · rw [if_pos h]
    rfl
  · rw [if_neg h]
    rfl

/-- The invariant of the latency pass after the prefix `p` of the visit order
has been processed: the latency vector keeps its size, holds exactly the
processed nodes, the compensation map only holds keys of dependency edges of
processed nodes, dependency sources of processed nodes are processed, and the
alignment equation holds at every processed node. -/
structure LatInv (g : Graph N P) (p : List Nat) (st : LatState) : Prop where
  len : st.1.length = g.nodeCount
  dom : ∀ m, st.1.getD m none ≠ none ↔ m ∈ p
  dcDom : ∀ a b, st.2 (a, b) ≠ none →
    ∃ m ∈ p, ∃ e ∈ g.edgesAt m, e.dstNode = m ∧ e.srcPort = a ∧ e.dstPort = b
  srcsIn : ∀ m ∈ p, ∀ e ∈ g.edgesAt m, e.dstNode = m → e.srcNode ∈ p
  align : ∀ m ∈ p, ∀ e ∈ g.edgesAt m, e.dstNode = m →
    (st.1.getD e.srcNode none).getD 0 + g.delays.getD e.srcNode 0
      + (st.2 (e.srcPort, e.dstPort)).getD 0 = (st.1.getD m none).getD 0

/-- Processing one more node of the visit order preserves the latency
invariant, provided its dependency sources are already processed. -/
theorem Graph.latStep_inv (g : Graph N P) (hE : g.EdgesWF) (hacyc : g.Acyclic)
    {p : List Nat} {n : Nat} {st : LatState}
    (hpl : ∀ m ∈ p, g.nodeLive m) (hnlive : g.nodeLive n) (hnp : n ∉ p)
    (htn : ∀ e ∈ g.edgesAt n, e.dstNode = n → e.srcNode ∈ p)
    (hI : LatInv g p st) :
    LatInv g (p ++ [n]) (g.solveLatencyStep st n) := by
  have hnlt : n < st.1.length := by
    rw [hI.len]
    exact hnlive.1
  have hP1 : ∀ x ∈ (g.depEdges n).map (fun e => (e.srcNode, g.edgeLat st.1 e.srcNode)),
      ∃ f ∈ g.depEdges n, x = (f.srcNode, g.edgeLat st.1 f.srcNode) := by
    intro x hx
    obtain ⟨f, hf, hfx⟩ := List.mem_map.1 hx
    exact ⟨f, hf, hfx.symm⟩
  have hdep : ∀ f ∈ g.depEdges n, f ∈ g.edgesAt n ∧ f.dstNode = n := by
    intro f hf
    obtain ⟨hfe, hfd⟩ := List.mem_filter.1 hf
    rw [beq_iff_eq] at hfd
    exact ⟨hfe, hfd⟩
  have hsrc_ne : ∀ f ∈ g.depEdges n, f.srcNode ≠ n := by
    intro f hf hc
    obtain ⟨hfe, hfd⟩ := hdep f hf
    exact hacyc n (Relation.TransGen.single ⟨f, hfe, hc, hfd⟩)
  have hsrcport : ∀ f ∈ g.edgesAt n, ∀ e ∈ g.edgesAt n, f.srcPort = e.srcPort →
      f.srcNode = e.srcNode := by
    intro f hf e he hp2
    have h1 := (hE n hnlive.1 f hf).2.2.2.2.2.1
    have h2 := (hE n hnlive.1 e he).2.2.2.2.2.1
    rw [hp2, h2] at h1
    exact (pair_eq_fst h1).symm
  refine ⟨?_, ?_, ?_, ?_, ?_⟩
  · rw [g.solveLatencyStep_fst, List.length_set]
    exact hI.len
  · intro m
    rw [g.solveLatencyStep_fst]
    by_cases hmn : m = n
    · subst hmn
      rw [getD_set_eq st.1 m _ none hnlt]
      constructor
      · intro _
        exact List.mem_append.2 (Or.inr (List.mem_singleton.2 rfl))
      · intro _
        exact Option.some_ne_none _
    · rw [getD_set_ne st.1 hmn]
      rw [hI.dom m]
      constructor
      · intro h
        exact List.mem_append.2 (Or.inl h)
      · intro h
        rcases List.mem_append.1 h with h | h
        · exact h
        · exact absurd (List.mem_singleton.1 h) hmn
  · intro a b hne
    rw [g.solveLatencyStep_snd] at hne
    by_cases hold : (((g.depEdges n).map (fun e => (e.srcNode, g.edgeLat st.1 e.srcNode))).foldl
        (dcStep g n (g.nodeMaxLat st.1 n)) st.2) (a, b) = st.2 (a, b)
    · rw [hold] at hne
      obtain ⟨m, hm, e, he, hd, ha, hb⟩ := hI.dcDom a b hne
      exact ⟨m, List.mem_append.2 (Or.inl hm), e, he, hd, ha, hb⟩
    · have hwr : ¬ (∀ x ∈ (g.depEdges n).map (fun e => (e.srcNode, g.edgeLat st.1 e.srcNode)),
          ∀ f ∈ g.edgesAt n, f.srcNode = x.1 → (f.srcPort, f.dstPort) = (a, b) →
            g.nodeMaxLat st.1 n - x.2 = 0) := by
        intro hc
        exact hold (dcFold_ne _ st.2 hc)
      push_neg at hwr
      obtain ⟨x, hx, f, hfe, hfs, hfk, _⟩ := hwr
      obtain ⟨f2, hf2, hx2⟩ := hP1 x hx
      subst hx2
      have hfs2 : f.srcNode = f2.srcNode := hfs
      have hfne : f.srcNode ≠ n := by
        rw [hfs2]
        exact hsrc_ne f2 hf2
      have hfd : f.dstNode = n := by
        rcases (hE n hnlive.1 f hfe).1 with h | h
        · exact absurd h hfne
        · exact h
      exact ⟨n, List.mem_append.2 (Or.inr (List.mem_singleton.2 rfl)), f, hfe, hfd,
        pair_eq_fst hfk, pair_eq_snd hfk⟩
  · intro m hm e he hd
    rcases List.mem_append.1 hm with h | h
    · exact List.mem_append.2 (Or.inl (hI.srcsIn m h e he hd))
    · have hmn := List.mem_singleton.1 h
      subst hmn
      exact List.mem_append.2 (Or.inl (htn e he hd))
  · intro m hm e he hd
    rw [g.solveLatencyStep_fst, g.solveLatencyStep_snd]
    rcases List.mem_append.1 hm with hmp | hmn
    · have hsrc_p : e.srcNode ∈ p := hI.srcsIn m hmp e he hd
      have hsrc_ne_n : e.srcNode ≠ n := fun hc => hnp (hc ▸ hsrc_p)
      have hm_ne_n : m ≠ n := fun hc => hnp (hc ▸ hmp)
      have hmlive : g.nodeLive m := hpl m hmp
      rw [getD_set_ne st.1 hsrc_ne_n, getD_set_ne st.1 hm_ne_n]
      have hpres : (((g.depEdges n).map (fun e => (e.srcNode, g.edgeLat st.1 e.srcNode))).foldl
          (dcStep g n (g.nodeMaxLat st.1 n)) st.2) (e.srcPort, e.dstPort)
          = st.2 (e.srcPort, e.dstPort) := by
        refine dcFold_ne _ st.2 ?_
        intro x hx f hfe hfs hfk
        exfalso
        have hab2 : f.dstPort = e.dstPort := pair_eq_snd hfk
        have h1 := (hE n hnlive.1 f hfe).2.2.2.2.2.2
        have h2 := (hE m hmlive.1 e he).2.2.2.2.2.2
        rw [hab2, h2] at h1
        have hfdm : f.dstNode = m := ((pair_eq_fst h1).symm).trans hd
        rcases (hE n hnlive.1 f hfe).1 with hq | hq
        · obtain ⟨f2, hf2, hx2⟩ := hP1 x hx
          subst hx2
          have hfs2 : f.srcNode = f2.srcNode := hfs
          refine hsrc_ne f2 hf2 ?_
          rw [← hfs2]
          exact hq
        · rw [hfdm] at hq
          exact hm_ne_n hq
      rw [hpres]
      exact hI.align m hmp e he hd
    · have hmn2 := List.mem_singleton.1 hmn
      subst hmn2
      have hsrc_p : e.srcNode ∈ p := htn e he hd
      have hsrc_ne_n : e.srcNode ≠ m := fun hc => hnp (hc ▸ hsrc_p)
      rw [getD_set_ne st.1 hsrc_ne_n, getD_set_eq st.1 m _ none hnlt]
      have hedep : e ∈ g.depEdges m := by
        rw [Graph.depEdges, List.mem_filter]
        exact ⟨he, by rw [beq_iff_eq]; exact hd⟩
      have hlat_le : g.edgeLat st.1 e.srcNode ≤ g.nodeMaxLat st.1 m := by
        refine le_foldl_max _ 0 _ ?_
        exact List.mem_map.2 ⟨e, hedep, rfl⟩
      have huniq : ∀ f ∈ g.edgesAt m, (f.srcPort, f.dstPort) = (e.srcPort, e.dstPort) →
          f.srcNode = e.srcNode := by
        intro f hf hk
        exact hsrcport f hf e he (pair_eq_fst hk)
      have hval : ∀ x ∈ (g.depEdges m).map (fun e => (e.srcNode, g.edgeLat st.1 e.srcNode)),
          x.1 = e.srcNode → x.2 = g.edgeLat st.1 e.srcNode := by
        intro x hx hx1
        obtain ⟨f2, hf2, hx2⟩ := hP1 x hx
        subst hx2
        have h1 : f2.srcNode = e.srcNode := hx1
        show g.edgeLat st.1 f2.srcNode = g.edgeLat st.1 e.srcNode
        rw [h1]
      by_cases hc : g.nodeMaxLat st.1 m - g.edgeLat st.1 e.srcNode = 0
      · have hpres : (((g.depEdges m).map (fun e => (e.srcNode, g.edgeLat st.1 e.srcNode))).foldl
            (dcStep g m (g.nodeMaxLat st.1 m)) st.2) (e.srcPort, e.dstPort)
            = st.2 (e.srcPort, e.dstPort) := by
          refine dcFold_ne _ st.2 ?_
          intro x hx f hfe hfs hfk
          have hfsrc : f.srcNode = e.srcNode := huniq f hfe hfk
          have hx1 : x.1 = e.srcNode := by
            rw [← hfs, hfsrc]
          rw [hval x hx hx1]
          exact hc
        rw [hpres]
        have hnone : st.2 (e.srcPort, e.dstPort) = none := by
          by_contra hne
          obtain ⟨m2, hm2, e2, he2, hd2, ha2, hb2⟩ := hI.dcDom _ _ hne
          have h1 := (hE m hnlive.1 e he).2.2.2.2.2.2
          have h2 := (hE m2 (hpl m2 hm2).1 e2 he2).2.2.2.2.2.2
          rw [hb2, h1] at h2
          have : m2 = m := by
            rw [← hd2, ← hd]
            exact (pair_eq_fst h2).symm
          rw [this] at hm2
          exact hnp hm2
        rw [hnone]
        show g.edgeLat st.1 e.srcNode + 0 = g.nodeMaxLat st.1 m
        omega
      · have hwr : (((g.depEdges m).map (fun e => (e.srcNode, g.edgeLat st.1 e.srcNode))).foldl
            (dcStep g m (g.nodeMaxLat st.1 m)) st.2) (e.srcPort, e.dstPort)
            = some (g.nodeMaxLat st.1 m - g.edgeLat st.1 e.srcNode) := by
          refine dcFold_val huniq ⟨e, he, rfl, rfl⟩ hc _ st.2 hval ?_
          exact List.mem_map.2 ⟨e, hedep, rfl⟩
        rw [hwr]
        show g.edgeLat st.1 e.srcNode
            + (g.nodeMaxLat st.1 m - g.edgeLat st.1 e.srcNode) = g.nodeMaxLat st.1 m
        omega

/-- The cleared latency state satisfies the invariant for the empty prefix. -/
theorem Graph.latInit_inv (g : Graph N P) : LatInv g [] g.latInit := by
  refine ⟨?_, ?_, ?_, ?_, ?_⟩
  · exact List.length_replicate _ _
  · intro m
    show (List.replicate g.nodeCount (none : Option Nat)).getD m none ≠ none ↔ m ∈ []
    rw [getD_replicate_none]
    simp
  · intro a b hne
    exact absurd rfl hne
  · intro m hm
    exact absurd hm (List.not_mem_nil m)
  · intro m hm
    exact absurd hm (List.not_mem_nil m)

/-- The latency pass along a duplicate-free, live, topologically ordered visit
list establishes the invariant for the full list. -/
theorem Graph.latFold_inv (g : Graph N P) (hE : g.EdgesWF) (hacyc : g.Acyclic)
    {ord : List Nat} (hnd : ord.Nodup) (hlive : ∀ m ∈ ord, g.nodeLive m)
    (htopo : ∀ i, (hi : i < ord.length) → ∀ e ∈ g.edgesAt (ord.get ⟨i, hi⟩),
      e.dstNode = ord.get ⟨i, hi⟩ → e.srcNode ∈ ord.take i) :
    LatInv g ord (ord.foldl g.solveLatencyStep g.latInit) := by
  suffices h : ∀ rest p, ord = p ++ rest →
      LatInv g p (p.foldl g.solveLatencyStep g.latInit) →
      LatInv g ord (ord.foldl g.solveLatencyStep g.latInit) by
    exact h ord [] rfl g.latInit_inv
  intro rest
  induction rest with
  | nil =>
      intro p hsplit hI
      rw [List.append_nil] at hsplit
      subst hsplit
      exact hI
  | cons n rest ih =>
      intro p hsplit hI
      refine ih (p ++ [n]) (by rw [List.append_assoc]; exact hsplit) ?_
      rw [List.foldl_append]
      simp only [List.foldl_cons, List.foldl_nil]
      have hplen : p.length < ord.length := by
        rw [hsplit]
        simp
      have hget : ord.get ⟨p.length, hplen⟩ = n := by
        subst hsplit
        show (p ++ n :: rest)[p.length] = n
        rw [List.getElem_append_right (Nat.le_refl p.length)]
        simp
      have htake : ord.take p.length = p := by
        subst hsplit
        exact List.take_left' rfl
      have hnotp : n ∉ p := by
        intro hc
        subst hsplit
        exact (List.nodup_append.1 hnd).2.2 hc (List.mem_cons_self n rest)
      have hnlive : g.nodeLive n := by
        refine hlive n ?_
        rw [hsplit]
        exact List.mem_append.2 (Or.inr (List.mem_cons_self n rest))
      have hpl : ∀ m ∈ p, g.nodeLive m := by
        intro m hm
        refine hlive m ?_
        rw [hsplit]
        exact List.mem_append.2 (Or.inl hm)
      have htn : ∀ e ∈ g.edgesAt n, e.dstNode = n → e.srcNode ∈ p := by
        intro e he hd
        have h2 := htopo p.length hplen e (by rw [hget]; exact he) (by rw [hget]; exact hd)
        rw [htake] at h2
        exact h2
      exact g.latStep_inv hE hacyc hpl hnlive hnotp htn hI

/-- C2: on an invariant-satisfying acyclic graph, for every node `n` visited by
`compile` and every dependency edge `e` into `n`, the arrival latency computed
for `e`'s source node plus the source's intrinsic delay plus the delay
compensation recorded for `(e.srcPort, e.dstPort)` (`0` when no entry was
recorded) equals the arrival latency computed for `n`, all read back from the
state `compile` stores. -/
theorem claim2_latency_alignment [Inhabited N] [Inhabited P] (g : Graph N P)
    (hwf : g.WF) (hacyc : g.Acyclic) {n : Nat}
    (hn : n ∈ (g.compile).1.heapStore.scheduledNodes)
    {e : Edge} (he : e ∈ g.edgesAt n) (hd : e.dstNode = n) :
    ((g.compile).1.heapStore.allLatencies.getD e.srcNode none).getD 0
      + g.delays.getD e.srcNode 0
      + ((g.compile).1.heapStore.delayComps (e.srcPort, e.dstPort)).getD 0
    = ((g.compile).1.heapStore.allLatencies.getD n none).getD 0 := by
  obtain ⟨hE, hB, _⟩ := hwf
  obtain ⟨hnd, hlive, htopo, _⟩ := g.visitOrder_spec hE hB
  have hI := g.latFold_inv hE hacyc hnd hlive htopo
  exact hI.align n hn e he hd

/-- Witness for C2 at the S4 chain: the dependency edge `A -> B` read at its
consumer `B`. -/
theorem claim2_witness :
    chainGraph.WF ∧ chainGraph.Acyclic ∧
    1 ∈ (chainGraph.compile).1.heapStore.scheduledNodes ∧
    ({ srcNode := 0, srcPort := 0, dstNode := 1, dstPort := 3, ptype := 0 } : Edge)
      ∈ chainGraph.edgesAt 1 ∧
    ((chainGraph.compile).1.heapStore.allLatencies.getD 0 none).getD 0
      + chainGraph.delays.getD 0 0
      + ((chainGraph.compile).1.heapStore.delayComps (0, 3)).getD 0
    = ((chainGraph.compile).1.heapStore.allLatencies.getD 1 none).getD 0 := by
  have hacyc : chainGraph.Acyclic :=
    Graph.acyclic_of_edge_rank chainGraph id (by decide)
  exact ⟨by decide, hacyc, by decide, by decide,
    @claim2_latency_alignment String String _ _ chainGraph (by decide) hacyc 1 (by decide)
      { srcNode := 0, srcPort := 0, dstNode := 1, dstPort := 3, ptype := 0 }
      (by decide) (by decide)⟩

/-!  Claim C4: buffer safety of the buffer-assignment pass. -/

theorem stackAt_mk_set_eq {al : BufferAllocator} {t : Nat} (htl : t < al.bufferCountStacks.length)
    (v : Nat × List Nat) :
    BufferAllocator.stackAt ⟨al.bufferCountStacks.set t v⟩ t = v := by
  unfold BufferAllocator.stackAt
  exact getD_set_eq _ _ _ _ htl

theorem stackAt_mk_set_ne {al : BufferAllocator} {t t2 : Nat} (h : t2 ≠ t)
    (v : Nat × List Nat) :
    BufferAllocator.stackAt ⟨al.bufferCountStacks.set t v⟩ t2 = al.stackAt t2 := by
  unfold BufferAllocator.stackAt
  exact getD_set_ne _ h _ _

theorem stackAt_clear (al : BufferAllocator) (t : Nat) :
    al.clear.stackAt t = (0, []) := by
  unfold BufferAllocator.clear BufferAllocator.stackAt
  rw [List.getD_eq_getElem?_getD, List.getElem?_map]
  cases al.bufferCountStacks[t]? with
  | none => rfl
  | some v => rfl

/-- Everything `acquire` guarantees about its result and the new allocator
state, given a well-formed free stack for the type. -/
theorem acquire_spec (al : BufferAllocator) (t : Nat)
    (htl : t < al.bufferCountStacks.length)
    (hnd : (al.stackAt t).2.Nodup)
    (hlt : ∀ i ∈ (al.stackAt t).2, i < (al.stackAt t).1) :
    (al.acquire t).1.btype = t ∧
    (al.acquire t).2.bufferCountStacks.length = al.bufferCountStacks.length ∧
    (∀ t2, t2 ≠ t → (al.acquire t).2.stackAt t2 = al.stackAt t2) ∧
    (al.stackAt t).1 ≤ ((al.acquire t).2.stackAt t).1 ∧
    (∀ i ∈ ((al.acquire t).2.stackAt t).2, i ∈ (al.stackAt t).2) ∧
    ((al.acquire t).2.stackAt t).2.Nodup ∧
    (al.acquire t).1.index < ((al.acquire t).2.stackAt t).1 ∧
    (al.acquire t).1.index ∉ ((al.acquire t).2.stackAt t).2 ∧
    ((al.acquire t).1.index ∈ (al.stackAt t).2 ∨ (al.acquire t).1.index = (al.stackAt t).1) := by
  unfold BufferAllocator.acquire
  cases hcs : (al.stackAt t).2 with
  | cons i rest =>
      refine ⟨rfl, List.length_set .., ?_, ?_, ?_, ?_, ?_, ?_, ?_⟩
      · intro t2 h2
        exact stackAt_mk_set_ne h2 _
      · rw [stackAt_mk_set_eq htl]
      · rw [stackAt_mk_set_eq htl]
        intro j hj
        exact List.mem_cons_of_mem i hj
      · rw [stackAt_mk_set_eq htl]
        rw [hcs] at hnd
        exact (List.nodup_cons.1 hnd).2
      · rw [stackAt_mk_set_eq htl]
        refine hlt i ?_
        rw [hcs]
        exact List.mem_cons_self i rest
      · rw [stackAt_mk_set_eq htl]
        rw [hcs] at hnd
        exact (List.nodup_cons.1 hnd).1
      · exact Or.inl (List.mem_cons_self i rest)
  | nil =>
      refine ⟨rfl, List.length_set .., ?_, ?_, ?_, ?_, ?_, ?_, ?_⟩
      · intro t2 h2
        exact stackAt_mk_set_ne h2 _
      · rw [stackAt_mk_set_eq htl]
        exact Nat.le_succ _
      · rw [stackAt_mk_set_eq htl]
        intro j hj
        exact absurd hj (List.not_mem_nil j)
      · rw [stackAt_mk_set_eq htl]
        exact List.nodup_nil
      · rw [stackAt_mk_set_eq htl]
        exact Nat.lt_succ_self _
      · rw [stackAt_mk_set_eq htl]
        exact List.not_mem_nil _
      · exact Or.inr rfl

/-- Everything `release` does to the allocator state. -/
theorem release_spec (al : BufferAllocator) (b : Buffer)
    (htl : b.btype < al.bufferCountStacks.length) :
    (al.release b).bufferCountStacks.length = al.bufferCountStacks.length ∧
    (∀ t2, t2 ≠ b.btype → (al.release b).stackAt t2 = al.stackAt t2) ∧
    (al.release b).stackAt b.btype
      = ((al.stackAt b.btype).1, b.index :: (al.stackAt b.btype).2) := by
  unfold BufferAllocator.release
  exact ⟨List.length_set .., fun t2 h2 => stackAt_mk_set_ne h2 _, stackAt_mk_set_eq htl _⟩

/-- The allocator/assignment invariant of the buffer pass: the free stacks are
duplicate-free and below their type's fresh counter, every output assignment
with a positive refcount (a buffer some consumer still has to read) has a
buffer below its type's counter, of an in-range type, not on the free stack —
and no two distinct producer pairs with positive refcounts share a buffer
index of the same type. -/
structure AInv (g : Graph N P) (oa : OutAsg) (al : BufferAllocator) : Prop where
  len : al.bufferCountStacks.length = g.numTypes
  freeNodup : ∀ t, (al.stackAt t).2.Nodup
  freeLt : ∀ t, ∀ i ∈ (al.stackAt t).2, i < (al.stackAt t).1
  liveLt : ∀ k b c, oa k = some (b, c) → 0 < c → b.index < (al.stackAt b.btype).1
  liveTy : ∀ k b c, oa k = some (b, c) → 0 < c → b.btype < g.numTypes
  liveFree : ∀ k b c, oa k = some (b, c) → 0 < c → b.index ∉ (al.stackAt b.btype).2
  distinct : ∀ k b c k2 b2 c2, oa k = some (b, c) → 0 < c → oa k2 = some (b2, c2) →
    0 < c2 → k ≠ k2 → b.btype = b2.btype → b.index ≠ b2.index

/-- A discarded `acquire` (the source's eager `or_insert` argument) preserves
the invariant: the handed-out index simply leaks. -/
theorem AInv.leak {g : Graph N P} {oa : OutAsg} {al : BufferAllocator}
    (hA : AInv g oa al) {t : Nat} (ht : t < g.numTypes) :
    AInv g oa (al.acquire t).2 := by
  have htl : t < al.bufferCountStacks.length := by
    rw [hA.len]
    exact ht
  obtain ⟨_, s2, s3, s4, s5, s6, _, _, _⟩ := acquire_spec al t htl (hA.freeNodup t) (hA.freeLt t)
  refine ⟨by rw [s2]; exact hA.len, ?_, ?_, ?_, hA.liveTy, ?_, hA.distinct⟩
  · intro t2
    by_cases h2 : t2 = t
    · subst h2
      exact s6
    · rw [s3 t2 h2]
      exact hA.freeNodup t2
  · intro t2 i hi
    by_cases h2 : t2 = t
    · subst h2
      exact Nat.lt_of_lt_of_le (hA.freeLt t2 i (s5 i hi)) s4
    · rw [s3 t2 h2] at hi ⊢
      exact hA.freeLt t2 i hi
  · intro k b c hk hc
    by_cases h2 : b.btype = t
    · rw [h2]
      exact Nat.lt_of_lt_of_le (h2 ▸ hA.liveLt k b c hk hc) s4
    · rw [s3 _ h2]
      exact hA.liveLt k b c hk hc
  · intro k b c hk hc
    by_cases h2 : b.btype = t
    · rw [h2]
      intro hmem
      exact (h2 ▸ hA.liveFree k b c hk hc) (s5 _ (h2 ▸ hmem))
    · rw [s3 _ h2]
      exact hA.liveFree k b c hk hc

/-- Changing a positive refcount to another positive refcount preserves the
invariant. -/
theorem AInv.recount {g : Graph N P} {oa : OutAsg} {al : BufferAllocator}
    (hA : AInv g oa al) {k : Nat × Nat} {b : Buffer} {c c2 : Nat}
    (hk : oa k = some (b, c)) (hc : 0 < c) (hc2 : 0 < c2) :
    AInv g (Function.update oa k (some (b, c2))) al := by
  have hval : ∀ k2 b2 cc, Function.update oa k (some (b, c2)) k2 = some (b2, cc) → 0 < cc →
      ∃ cc0, oa k2 = some (b2, cc0) ∧ 0 < cc0 := by
    intro k2 b2 cc h2 hcc
    by_cases hkk : k2 = k
    · subst hkk
      rw [Function.update_same] at h2
      have hb : b2 = b := by
        have h3 := Option.some.inj h2
        exact pair_eq_fst h3.symm
      subst hb
      exact ⟨c, hk, hc⟩
    · rw [Function.update_noteq hkk] at h2
      exact ⟨cc, h2, hcc⟩
  refine ⟨hA.len, hA.freeNodup, hA.freeLt, ?_, ?_, ?_, ?_⟩
  · intro k2 b2 cc h2 hcc
    obtain ⟨cc0, h0, hcc0⟩ := hval k2 b2 cc h2 hcc
    exact hA.liveLt k2 b2 cc0 h0 hcc0
  · intro k2 b2 cc h2 hcc
    obtain ⟨cc0, h0, hcc0⟩ := hval k2 b2 cc h2 hcc
    exact hA.liveTy k2 b2 cc0 h0 hcc0
  · intro k2 b2 cc h2 hcc
    obtain ⟨cc0, h0, hcc0⟩ := hval k2 b2 cc h2 hcc
    exact hA.liveFree k2 b2 cc0 h0 hcc0
  · intro k2 b2 cc k3 b3 cc3 h2 hcc h3 hcc3 hne hty
    obtain ⟨cc0, h0, hcc0⟩ := hval k2 b2 cc h2 hcc
    obtain ⟨cc1, h1, hcc1⟩ := hval k3 b3 cc3 h3 hcc3
    exact hA.distinct k2 b2 cc0 k3 b3 cc1 h0 hcc0 h1 hcc1 hne hty

/-- Draining a refcount to zero and releasing the buffer preserves the
invariant: the buffer leaves the live set and joins the free stack. -/
theorem AInv.kill {g : Graph N P} {oa : OutAsg} {al : BufferAllocator}
    (hA : AInv g oa al) {k : Nat × Nat} {b : Buffer} {c : Nat}
    (hk : oa k = some (b, c)) (hc : 0 < c) :
    AInv g (Function.update oa k (some (b, 0))) (al.release b) := by
  have htl : b.btype < al.bufferCountStacks.length := by
    rw [hA.len]
    exact hA.liveTy k b c hk hc
  obtain ⟨r1, r2, r3⟩ := release_spec al b htl
  have hval : ∀ k2 b2 cc, Function.update oa k (some (b, 0)) k2 = some (b2, cc) → 0 < cc →
      oa k2 = some (b2, cc) ∧ k2 ≠ k := by
    intro k2 b2 cc h2 hcc
    by_cases hkk : k2 = k
    · subst hkk
      rw [Function.update_same] at h2
      have := pair_eq_snd (Option.some.inj h2).symm
      omega
    · rw [Function.update_noteq hkk] at h2
      exact ⟨h2, hkk⟩
  refine ⟨by rw [r1]; exact hA.len, ?_, ?_, ?_, ?_, ?_, ?_⟩
  · intro t2
    by_cases h2 : t2 = b.btype
    · subst h2
      rw [r3]
      refine List.nodup_cons.2 ⟨hA.liveFree k b c hk hc, hA.freeNodup b.btype⟩
    · rw [r2 t2 h2]
      exact hA.freeNodup t2
  · intro t2 i hi
    by_cases h2 : t2 = b.btype
    · subst h2
      rw [r3] at hi ⊢
      rcases List.mem_cons.1 hi with h | h
      · subst h
        exact hA.liveLt k b c hk hc
      · exact hA.freeLt b.btype i h
    · rw [r2 t2 h2] at hi ⊢
      exact hA.freeLt t2 i hi
  · intro k2 b2 cc h2 hcc
    obtain ⟨h0, _⟩ := hval k2 b2 cc h2 hcc
    by_cases h3 : b2.btype = b.btype
    · rw [h3, r3]
      exact h3 ▸ hA.liveLt k2 b2 cc h0 hcc
    · rw [r2 _ h3]
      exact hA.liveLt k2 b2 cc h0 hcc
  · intro k2 b2 cc h2 hcc
    exact hA.liveTy k2 b2 cc (hval k2 b2 cc h2 hcc).1 hcc
  · intro k2 b2 cc h2 hcc
    obtain ⟨h0, hne⟩ := hval k2 b2 cc h2 hcc
    by_cases h3 : b2.btype = b.btype
    · rw [h3, r3]
      intro hmem
      rcases List.mem_cons.1 hmem with h | h
      · exact hA.distinct k2 b2 cc k b c h0 hcc hk hc hne h3 h
      · exact (h3 ▸ hA.liveFree k2 b2 cc h0 hcc) h
    · rw [r2 _ h3]
      exact hA.liveFree k2 b2 cc h0 hcc
  · intro k2 b2 cc k3 b3 cc3 h2 hcc h3 hcc3 hne hty
    exact hA.distinct k2 b2 cc k3 b3 cc3 (hval k2 b2 cc h2 hcc).1 hcc
      (hval k3 b3 cc3 h3 hcc3).1 hcc3 hne hty

/-- Creating a fresh output assignment with refcount `1` from an `acquire`
preserves the invariant. -/
theorem AInv.assign {g : Graph N P} {oa : OutAsg} {al : BufferAllocator}
    (hA : AInv g oa al) {t : Nat} (ht : t < g.numTypes) {k : Nat × Nat}
    (hk : oa k = none) :
    AInv g (Function.update oa k (some ((al.acquire t).1, 1))) (al.acquire t).2 := by
  have htl : t < al.bufferCountStacks.length := by
    rw [hA.len]
    exact ht
  obtain ⟨s1, s2, s3, s4, s5, s6, s7, s8, s9⟩ :=
    acquire_spec al t htl (hA.freeNodup t) (hA.freeLt t)
  have hleak : AInv g oa (al.acquire t).2 := hA.leak ht
  have hfresh : ∀ k2 b2 c2, oa k2 = some (b2, c2) → 0 < c2 →
      b2.btype = t → b2.index ≠ (al.acquire t).1.index := by
    intro k2 b2 c2 h2 hc2 hbt hcontra
    rcases s9 with h | h
    · refine (hbt ▸ hA.liveFree k2 b2 c2 h2 hc2) ?_
      rw [hcontra]
      exact h
    · have := hA.liveLt k2 b2 c2 h2 hc2
      rw [hcontra, hbt, h] at this
      exact Nat.lt_irrefl _ this
  have hval : ∀ k2 b2 cc, Function.update oa k (some ((al.acquire t).1, 1)) k2 = some (b2, cc) →
      0 < cc → (k2 = k ∧ b2 = (al.acquire t).1) ∨ (k2 ≠ k ∧ oa k2 = some (b2, cc)) := by
    intro k2 b2 cc h2 _
    by_cases hkk : k2 = k
    · subst hkk
      rw [Function.update_same] at h2
      exact Or.inl ⟨rfl, (pair_eq_fst (Option.some.inj h2)).symm⟩
    · rw [Function.update_noteq hkk] at h2
      exact Or.inr ⟨hkk, h2⟩
  refine ⟨hleak.len, hleak.freeNodup, hleak.freeLt, ?_, ?_, ?_, ?_⟩
  · intro k2 b2 cc h2 hcc
    rcases hval k2 b2 cc h2 hcc with ⟨_, hb⟩ | ⟨_, h0⟩
    · subst hb
      rw [s1]
      exact s7
    · exact hleak.liveLt k2 b2 cc h0 hcc
  · intro k2 b2 cc h2 hcc
    rcases hval k2 b2 cc h2 hcc with ⟨_, hb⟩ | ⟨_, h0⟩
    · subst hb
      rw [s1]
      exact ht
    · exact hleak.liveTy k2 b2 cc h0 hcc
  · intro k2 b2 cc h2 hcc
    rcases hval k2 b2 cc h2 hcc with ⟨_, hb⟩ | ⟨_, h0⟩
    · subst hb
      rw [s1]
      exact s8
    · exact hleak.liveFree k2 b2 cc h0 hcc
  · intro k2 b2 cc k3 b3 cc3 h2 hcc h3 hcc3 hne hty
    rcases hval k2 b2 cc h2 hcc with ⟨hk2, hb2⟩ | ⟨hk2, h02⟩ <;>
      rcases hval k3 b3 cc3 h3 hcc3 with ⟨hk3, hb3⟩ | ⟨hk3, h03⟩
    · exact absurd (hk2.trans hk3.symm) hne
    · subst hb2
      intro hcontra
      refine hfresh k3 b3 cc3 h03 hcc3 ?_ hcontra.symm
      rw [← hty, s1]
    · subst hb3
      intro hcontra
      refine hfresh k2 b2 cc h02 hcc ?_ hcontra
      rw [hty, s1]
    · exact hA.distinct k2 b2 cc k3 b3 cc3 h02 hcc h03 hcc3 hne hty

/-- One outgoing edge of port `port` of node `n` in `solve_buffer_requirements`:
acquire eagerly, look up or create the output assignment, bump its refcount and
append the buffer to the consumer's input list. -/
def outStep (n port ty : Nat) (st : BufState) (out : Edge) : BufState :=
  let oa := st.1
  let ia := st.2.1
  let acq := st.2.2.acquire ty
  let bc := match oa (n, port) with
    | some bc => bc
    | none => (acq.1, 0)
  let oa1 := Function.update oa (n, port) (some (bc.1, bc.2 + 1))
  let ia1 := Function.update ia (out.dstNode, out.dstPort)
    (some ((ia (out.dstNode, out.dstPort)).getD [] ++ [(bc.1, (out.srcPort, out.dstPort))]))
  (oa1, ia1, acq.2)

/-- One incoming edge in `solve_buffer_requirements`: decrement the producer's
refcount, releasing the buffer when it drains to zero.  The two skip branches
are panic points of the source (missing producer, and refcount underflow),
unreachable under the invariants. -/
def inStep (st : BufState) (inp : Edge) : BufState :=
  let oa := st.1
  match oa (inp.srcNode, inp.srcPort) with
  | none => st
  | some bc =>
      match bc.2 with
      | 0 => st
      | c + 1 =>
          let oa1 := Function.update oa (inp.srcNode, inp.srcPort) (some (bc.1, c))
          let al1 := if c = 0 then st.2.2.release bc.1 else st.2.2
          (oa1, st.2.1, al1)

theorem Graph.solveBufferStep_eq (g : Graph N P) (st : BufState) (n : Nat) :
    g.solveBufferStep st n = (g.portsAt n).foldl
      (fun st port =>
        (g.incoming port).foldl inStep
          ((g.outgoing port).foldl (outStep n port (g.portDataAt port).2) st)) st := rfl

theorem outStep_alloc (n port ty : Nat) (st : BufState) (out : Edge) :
    (outStep n port ty st out).2.2 = (st.2.2.acquire ty).2 := rfl

theorem outStep_oa_of_none (n port ty : Nat) (st : BufState) (out : Edge)
    (h : st.1 (n, port) = none) :
    (outStep n port ty st out).1 =
      Function.update st.1 (n, port) (some ((st.2.2.acquire ty).1, 1)) := by
  unfold outStep
  dsimp only
  rw [h]

theorem outStep_oa_of_some (n port ty : Nat) (st : BufState) (out : Edge)
    {b : Buffer} {c : Nat} (h : st.1 (n, port) = some (b, c)) :
    (outStep n port ty st out).1 =
      Function.update st.1 (n, port) (some (b, c + 1)) := by
  unfold outStep
  dsimp only
  rw [h]

theorem inStep_of_none (st : BufState) (inp : Edge)
    (h : st.1 (inp.srcNode, inp.srcPort) = none) : inStep st inp = st := by
  unfold inStep
  dsimp only
  rw [h]

theorem inStep_of_zero (st : BufState) (inp : Edge) {b : Buffer}
    (h : st.1 (inp.srcNode, inp.srcPort) = some (b, 0)) : inStep st inp = st := by
  unfold inStep
  dsimp only
  rw [h]

theorem inStep_of_succ (st : BufState) (inp : Edge) {b : Buffer} {c : Nat}
    (h : st.1 (inp.srcNode, inp.srcPort) = some (b, c + 1)) :
    inStep st inp =
      (Function.update st.1 (inp.srcNode, inp.srcPort) (some (b, c)), st.2.1,
        if c = 0 then st.2.2.release b else st.2.2) := by
  unfold inStep
  dsimp only
  rw [h]

/-- The outgoing-edge fold of one port preserves the invariant; it touches only
the key `(n, port)`, which ends live or untouched. -/
theorem outFold_inv {g : Graph N P} {n port ty : Nat} (hty : ty < g.numTypes) :
    ∀ (outs : List Edge) (st : BufState),
      AInv g st.1 st.2.2 →
      (st.1 (n, port) = none ∨ ∃ b c, st.1 (n, port) = some (b, c) ∧ 0 < c) →
      (AInv g (outs.foldl (outStep n port ty) st).1 (outs.foldl (outStep n port ty) st).2.2 ∧
       ((outs.foldl (outStep n port ty) st).1 (n, port) = none ∨
         ∃ b c, (outs.foldl (outStep n port ty) st).1 (n, port) = some (b, c) ∧ 0 < c) ∧
       (∀ k, (outs.foldl (outStep n port ty) st).1 k ≠ none →
         st.1 k ≠ none ∨ k = (n, port))) := by
  intro outs
  induction outs with
  | nil =>
      intro st hA hve
      exact ⟨hA, hve, fun k hk => Or.inl hk⟩
  | cons out outs ih =>
      intro st hA hve
      rw [List.foldl_cons]
      have hstep : AInv g (outStep n port ty st out).1 (outStep n port ty st out).2.2 ∧
          (∃ b c, (outStep n port ty st out).1 (n, port) = some (b, c) ∧ 0 < c) ∧
          (∀ k, (outStep n port ty st out).1 k ≠ none → st.1 k ≠ none ∨ k = (n, port)) := by
        rcases hve with hnone | ⟨b, c, hsome, hc⟩
        · rw [outStep_oa_of_none n port ty st out hnone, outStep_alloc]
          refine ⟨hA.assign hty hnone, ⟨(st.2.2.acquire ty).1, 1, ?_, Nat.one_pos⟩, ?_⟩
          · rw [Function.update_same]
          · intro k hk
            by_cases hkk : k = (n, port)
            · exact Or.inr hkk
            · rw [Function.update_noteq hkk] at hk
              exact Or.inl hk
        · rw [outStep_oa_of_some n port ty st out hsome, outStep_alloc]
          refine ⟨(hA.recount hsome hc (Nat.succ_pos c)).leak hty,
            ⟨b, c + 1, ?_, Nat.succ_pos c⟩, ?_⟩
          · rw [Function.update_same]
          · intro k hk
            by_cases hkk : k = (n, port)
            · exact Or.inr hkk
            · rw [Function.update_noteq hkk] at hk
              exact Or.inl hk
      obtain ⟨hA1, hve1, hdom1⟩ := hstep
      obtain ⟨hA2, hve2, hdom2⟩ := ih (outStep n port ty st out) hA1 (Or.inr hve1)
      refine ⟨hA2, hve2, ?_⟩
      intro k hk
      rcases hdom2 k hk with h | h
      · exact hdom1 k h
      · exact Or.inr h

/-- The incoming-edge fold of one port preserves the invariant and creates no
new output-assignment keys. -/
theorem inFold_inv {g : Graph N P} :
    ∀ (inps : List Edge) (st : BufState),
      AInv g st.1 st.2.2 →
      (AInv g (inps.foldl inStep st).1 (inps.foldl inStep st).2.2 ∧
       (∀ k, (inps.foldl inStep st).1 k ≠ none → st.1 k ≠ none)) := by
  intro inps
  induction inps with
  | nil =>
      intro st hA
      exact ⟨hA, fun _ hk => hk⟩
  | cons inp inps ih =>
      intro st hA
      rw [List.foldl_cons]
      have hstep : AInv g (inStep st inp).1 (inStep st inp).2.2 ∧
          (∀ k, (inStep st inp).1 k ≠ none → st.1 k ≠ none) := by
        cases hoa : st.1 (inp.srcNode, inp.srcPort) with
        | none =>
            rw [inStep_of_none st inp hoa]
            exact ⟨hA, fun _ hk => hk⟩
        | some bc =>
            obtain ⟨b, c⟩ := bc
            cases c with
            | zero =>
                rw [inStep_of_zero st inp hoa]
                exact ⟨hA, fun _ hk => hk⟩
            | succ c =>
                rw [inStep_of_succ st inp hoa]
                dsimp only
                constructor
                · by_cases hc0 : c = 0
                  · subst hc0
                    rw [if_pos rfl]
                    exact hA.kill hoa (Nat.succ_pos 0)
                  · rw [if_neg hc0]
                    exact hA.recount hoa (Nat.succ_pos c) (Nat.pos_of_ne_zero hc0)
                · intro k hk
                  by_cases hkk : k = (inp.srcNode, inp.srcPort)
                  · subst hkk
                    rw [hoa]
                    exact Option.some_ne_none _
                  · rw [Function.update_noteq hkk] at hk
                    exact hk
      obtain ⟨hA1, hdom1⟩ := hstep
      obtain ⟨hA2, hdom2⟩ := ih (inStep st inp) hA1
      exact ⟨hA2, fun k hk => hdom1 k (hdom2 k hk)⟩

/-- The port fold of one node preserves the invariant; all new keys belong to
the node being processed. -/
theorem portFold_inv {g : Graph N P} {n : Nat} :
    ∀ (ports : List Nat), ports.Nodup →
      (∀ q ∈ ports, (g.portDataAt q).2 < g.numTypes) →
      ∀ st : BufState, AInv g st.1 st.2.2 →
      (∀ q ∈ ports, st.1 (n, q) = none) →
      (AInv g (ports.foldl (fun st port => (g.incoming port).foldl inStep
            ((g.outgoing port).foldl (outStep n port (g.portDataAt port).2) st)) st).1
          (ports.foldl (fun st port => (g.incoming port).foldl inStep
            ((g.outgoing port).foldl (outStep n port (g.portDataAt port).2) st)) st).2.2 ∧
       (∀ k, (ports.foldl (fun st port => (g.incoming port).foldl inStep
            ((g.outgoing port).foldl (outStep n port (g.portDataAt port).2) st)) st).1 k ≠ none →
         st.1 k ≠ none ∨ k.1 = n)) := by
  intro ports
  induction ports with
  | nil =>
      intro _ _ st hA _
      exact ⟨hA, fun _ hk => Or.inl hk⟩
  | cons q qs ih =>
      intro hnd hty st hA hnone
      rw [List.foldl_cons]
      obtain ⟨hA1, _, hdom1⟩ := outFold_inv (hty q (List.mem_cons_self q qs))
        (g.outgoing q) st hA (Or.inl (hnone q (List.mem_cons_self q qs)))
      obtain ⟨hA2, hdom2⟩ := inFold_inv (g.incoming q)
        ((g.outgoing q).foldl (outStep n q (g.portDataAt q).2) st) hA1
      have hqs : q ∉ qs := (List.nodup_cons.1 hnd).1
      have hnone2 : ∀ q2 ∈ qs, ((g.incoming q).foldl inStep
          ((g.outgoing q).foldl (outStep n q (g.portDataAt q).2) st)).1 (n, q2) = none := by
        intro q2 hq2
        by_contra hne
        rcases hdom1 (n, q2) (hdom2 (n, q2) hne) with h | h
        · exact h (hnone q2 (List.mem_cons_of_mem q hq2))
        · have hq2q : q2 = q := pair_eq_snd h
          subst hq2q
          exact hqs hq2
      obtain ⟨hA3, hdom3⟩ := ih (List.nodup_cons.1 hnd).2
        (fun q2 hq2 => hty q2 (List.mem_cons_of_mem q hq2)) _ hA2 hnone2
      refine ⟨hA3, ?_⟩
      intro k hk
      rcases hdom3 k hk with h | h
      · rcases hdom1 k (hdom2 k h) with h2 | h2
        · exact Or.inl h2
        · refine Or.inr ?_
          rw [h2]
      · exact Or.inr h

/-- One node step of the buffer pass preserves the invariant. -/
theorem Graph.bufStep_inv (g : Graph N P) (hP : g.PortsWF) {p : List Nat} {n : Nat}
    {st : BufState} (hnlive : g.nodeLive n) (hnp : n ∉ p)
    (hA : AInv g st.1 st.2.2) (hdom : ∀ k, st.1 k ≠ none → k.1 ∈ p) :
    AInv g (g.solveBufferStep st n).1 (g.solveBufferStep st n).2.2 ∧
      (∀ k, (g.solveBufferStep st n).1 k ≠ none → k.1 ∈ p ++ [n]) := by
  rw [g.solveBufferStep_eq]
  have hports := hP.1 n hnlive.1 hnlive.2
  have hty : ∀ q ∈ g.portsAt n, (g.portDataAt q).2 < g.numTypes := by
    intro q hq
    have h1 := (hports.2 q hq).1
    exact (hP.2 q h1.1 h1.2).2.2
  have hnone : ∀ q ∈ g.portsAt n, st.1 (n, q) = none := by
    intro q hq
    by_contra hne
    exact hnp (hdom (n, q) hne)
  obtain ⟨hA2, hdom2⟩ := portFold_inv (g.portsAt n) hports.1 hty st hA hnone
  refine ⟨hA2, ?_⟩
  intro k hk
  rcases hdom2 k hk with h | h
  · exact List.mem_append.2 (Or.inl (hdom k h))
  · exact List.mem_append.2 (Or.inr (List.mem_singleton.2 h))

/-- The cleared buffer state satisfies the invariant. -/
theorem Graph.bufInit_inv (g : Graph N P) (hL : g.LensWF) :
    AInv g g.bufInit.1 g.bufInit.2.2 := by
  refine ⟨?_, ?_, ?_, ?_, ?_, ?_, ?_⟩
  · show g.heapStore.allocator.clear.bufferCountStacks.length = g.numTypes
    unfold BufferAllocator.clear
    rw [List.length_map]
    exact hL.2.2.2.2
  · intro t
    show (g.heapStore.allocator.clear.stackAt t).2.Nodup
    rw [stackAt_clear]
    exact List.nodup_nil
  · intro t i hi
    rw [show g.bufInit.2.2 = g.heapStore.allocator.clear from rfl, stackAt_clear] at hi
    exact absurd hi (List.not_mem_nil i)
  · intro k b c hk
    exact absurd hk (Option.noConfusion)
  · intro k b c hk
    exact absurd hk (Option.noConfusion)
  · intro k b c hk
    exact absurd hk (Option.noConfusion)
  · intro k b c k2 b2 c2 hk
    exact absurd hk (Option.noConfusion)

/-- The invariant holds after every prefix of the node walk. -/
theorem Graph.bufPrefix_inv (g : Graph N P) (hP : g.PortsWF) (hL : g.LensWF)
    {ord : List Nat} (hnd : ord.Nodup) (hlive : ∀ m ∈ ord, g.nodeLive m) :
    ∀ k, AInv g ((ord.take k).foldl g.solveBufferStep g.bufInit).1
        ((ord.take k).foldl g.solveBufferStep g.bufInit).2.2 ∧
      (∀ key, ((ord.take k).foldl g.solveBufferStep g.bufInit).1 key ≠ none →
        key.1 ∈ ord.take k) := by
  intro k
  induction k with
  | zero =>
      rw [List.take_zero]
      refine ⟨g.bufInit_inv hL, ?_⟩
      intro key hk
      exact absurd rfl hk
  | succ k ih =>
      by_cases hk : k < ord.length
      · rw [List.take_succ, List.getElem?_eq_getElem hk, Option.toList_some, List.foldl_append]
        simp only [List.foldl_cons, List.foldl_nil]
        obtain ⟨hA, hdom⟩ := ih
        have hnlive : g.nodeLive ord[k] := hlive _ (List.getElem_mem hk)
        have hnp : ord[k] ∉ ord.take k := by
          intro hc
          have hnd2 := hnd
          rw [← List.take_append_drop k ord] at hnd2
          have hdropmem : ord[k] ∈ ord.drop k := by
            rw [List.drop_eq_getElem_cons hk]
            exact List.mem_cons_self _ _
          exact (List.nodup_append.1 hnd2).2.2 hc hdropmem
        exact g.bufStep_inv hP hnlive hnp hA hdom
      · push_neg at hk
        have heq : ord.take (k + 1) = ord.take k := by
          rw [List.take_of_length_le hk, List.take_of_length_le (Nat.le_succ_of_le hk)]
        rw [heq]
        exact ih

/-- C4: buffer safety during one run of `compile` on an invariant-satisfying
graph.  The buffer pass of `compile` folds `solveBufferStep` over the scheduled
node order; after any number `k` of visited nodes, two distinct producer pairs
whose output assignments both still carry a positive refcount — i.e. some
consumer of each has not been visited yet — never hold the same buffer index
of the same type.  A buffer index is therefore only reassigned after its
refcount has drained to zero.  The second conjunct ties the fold to `compile`:
the full fold is exactly the output-assignment state `compile` stores. -/
theorem claim4_buffer_safety [Inhabited N] [Inhabited P] (g : Graph N P)
    (hwf : g.WF) (k : Nat) {n q n2 q2 : Nat} {b b2 : Buffer} {c c2 : Nat}
    (h1 : ((((g.compile).1.heapStore.scheduledNodes).take k).foldl
        g.solveBufferStep g.bufInit).1 (n, q) = some (b, c))
    (hc : 0 < c)
    (h2 : ((((g.compile).1.heapStore.scheduledNodes).take k).foldl
        g.solveBufferStep g.bufInit).1 (n2, q2) = some (b2, c2))
    (hc2 : 0 < c2)
    (hne : (n, q) ≠ (n2, q2))
    (hty : b.btype = b2.btype) :
    b.index ≠ b2.index ∧
    (g.compile).1.heapStore.outputAssignments =
      (((g.compile).1.heapStore.scheduledNodes).foldl g.solveBufferStep g.bufInit).1 := by
  obtain ⟨hE, hB, _, hP, hL⟩ := hwf
  obtain ⟨hnd, hlive, _, _⟩ := g.visitOrder_spec hE hB
  have hI := (g.bufPrefix_inv hP hL hnd hlive k).1
  exact ⟨hI.distinct (n, q) b c (n2, q2) b2 c2 h1 hc h2 hc2 hne hty, rfl⟩

/-- Witness for C4 at the fan graph after two visited nodes: `A.out` still has
the unvisited consumer `C` (refcount `1`, buffer index `0`), `B.out` has the
unvisited consumer `C` (refcount `1`, buffer index `2`), and the two indices
differ. -/
theorem claim4_witness :
    fanGraph.WF ∧
    ((((fanGraph.compile).1.heapStore.scheduledNodes).take 2).foldl
        fanGraph.solveBufferStep fanGraph.bufInit).1 (0, 0)
      = some ({ index := 0, btype := 0 }, 1) ∧
    ((((fanGraph.compile).1.heapStore.scheduledNodes).take 2).foldl
        fanGraph.solveBufferStep fanGraph.bufInit).1 (1, 1)
      = some ({ index := 2, btype := 0 }, 1) ∧
    (0, 0) ≠ ((1, 1) : Nat × Nat) ∧
    (({ index := 0, btype := 0 } : Buffer).index ≠ ({ index := 2, btype := 0 } : Buffer).index ∧
     (fanGraph.compile).1.heapStore.outputAssignments =
       (((fanGraph.compile).1.heapStore.scheduledNodes).foldl
         fanGraph.solveBufferStep fanGraph.bufInit).1) := by
  exact ⟨by decide, by decide, by decide, by decide,
    @claim4_buffer_safety String String _ _ fanGraph (by decide) 2 0 0 1 1
      { index := 0, btype := 0 } { index := 2, btype := 0 } 1 1
      (by decide) (by decide) (by decide) (by decide) (by decide) (by decide)⟩

end AudioGraph
